import Mathlib

/-!
# Verification of the Futoshiki CSP propagation engine

This file gives a shallow embedding of the constraint-propagation code in
`propagators.py` and the model constructors in `futoshiki_csp.py`, together
with theorems settling the specification claims about them.

Variables are identified by their index into the network's variable list
(Python object identity = list position).  Constraints are identified by
their index into the network's constraint list.  The mutable part of the
network (the variables with their current-domain masks and assignments) is
threaded explicitly as a `State`.
-/

set_option maxHeartbeats 1000000

namespace Futoshiki

/-- Modelled from the spec: a CSP variable with an identifier, an ordered
original domain, a parallel boolean "currently present" mask (the current
domain is the subsequence of original-domain values whose mask bit is true)
and an optional assigned value.  (The `Variable` class of the `cspbase`
module is not part of the repository sources; it is modelled from the
spec's data-model section.) -/
structure Var where
  name : String
  dom : List Int
  curdom : List Bool
  assignedValue : Option Int
deriving DecidableEq, Repr

/-- Modelled from the spec: a constraint with an identifier, an ordered
scope (variable indices) and the extensional list of satisfying tuples,
each aligned positionally with the scope.  (The `Constraint` class of
`cspbase` is modelled from the spec.) -/
structure Cons where
  name : String
  scope : List Nat
  tuples : List (List Int)
deriving DecidableEq, Repr

/-- The mutable part of the network: the variable list. -/
abbrev State := List Var

/-- Modelled from the spec: a constraint network owning the variables and
constraints.  (The `CSP` class of `cspbase` is modelled from the spec.) -/
structure CSP where
  name : String
  vars : List Var
  cons : List Cons
deriving DecidableEq, Repr

def defaultVar : Var := ⟨"", [], [], none⟩

def defaultCons : Cons := ⟨"", [], []⟩

def getVarS (S : State) (u : Nat) : Var := S.getD u defaultVar

def isAssigned (S : State) (u : Nat) : Bool := (getVarS S u).assignedValue.isSome

def get_assigned_value (S : State) (u : Nat) : Option Int := (getVarS S u).assignedValue

/-- The subsequence of `d` whose mask bit in `m` is true. -/
def maskFilter : List Int → List Bool → List Int
  | d :: ds, b :: ms => if b then d :: maskFilter ds ms else maskFilter ds ms
  | _, _ => []

/-- Modelled from the spec: the current domain of a variable is the
subsequence of original-domain values whose mask bit is true. -/
def cur_domain (S : State) (u : Nat) : List Int :=
  maskFilter (getVarS S u).dom (getVarS S u).curdom

def cur_domain_size (S : State) (u : Nat) : Nat := (cur_domain S u).length

def domain_size (S : State) (u : Nat) : Nat := (getVarS S u).dom.length

/-- Modelled from the spec: a value is in the current domain of an assigned
variable iff it equals the assigned value; for an unassigned variable it
must be present in the mask-filtered current domain. -/
def in_cur_domain (S : State) (u : Nat) (val : Int) : Bool :=
  match (getVarS S u).assignedValue with
  | some a => decide (val = a)
  | none => decide (val ∈ cur_domain S u)

/-- Turn off the mask bit at the first position whose domain value is `x`
(Python `dom.index(x)`). -/
def maskOff : List Int → List Bool → Int → List Bool
  | d :: ds, b :: ms, x => if d = x then false :: ms else b :: maskOff ds ms x
  | _, ms, _ => ms

/-- Modelled from the spec: pruning marks a value absent in the mask;
assignments are untouched. -/
def prune_value (S : State) (u : Nat) (val : Int) : State :=
  S.set u { getVarS S u with curdom := maskOff (getVarS S u).dom (getVarS S u).curdom val }

/-- Modelled from the spec: assigning requires the variable to be
unassigned and the value to be currently present; otherwise it is a no-op. -/
def assign (S : State) (u : Nat) (val : Int) : State :=
  if isAssigned S u || !(in_cur_domain S u val) then S
  else S.set u { getVarS S u with assignedValue := some val }

/-- Modelled from the spec: unassigning clears the assigned value; a no-op
on an unassigned variable. -/
def unassign (S : State) (u : Nat) : State :=
  if isAssigned S u then S.set u { getVarS S u with assignedValue := none }
  else S

/-- Modelled from the spec: exact membership of a concrete value tuple in
the satisfying-tuple set. -/
def check (c : Cons) (vals : List (Option Int)) : Bool :=
  c.tuples.any (fun t => decide (t.map some = vals))

/-- Modelled from the spec: a tuple is valid when every scope variable's
positional value is in that variable's current domain. -/
def tuple_is_valid (S : State) (c : Cons) (t : List Int) : Bool :=
  (c.scope.zip t).all (fun p => in_cur_domain S p.1 p.2)

/-- Modelled from the spec: `(u, val)` has support under `c` iff some
satisfying tuple assigns `val` at `u`'s position and is valid against the
current domains. -/
def has_support (S : State) (c : Cons) (u : Nat) (val : Int) : Bool :=
  c.tuples.any (fun t =>
    ((c.scope.zip t).any (fun p => decide (p.1 = u) && decide (p.2 = val))) &&
    tuple_is_valid S c t)

def get_n_unasgn (S : State) (c : Cons) : Nat :=
  (c.scope.filter (fun u => !isAssigned S u)).length

def get_unasgn_vars (S : State) (c : Cons) : List Nat :=
  c.scope.filter (fun u => !isAssigned S u)

/-- Modelled from the spec: the variable→constraints index, complete and
consistent with each constraint's scope, in constraint order. -/
def get_cons_with_var (net : List Cons) (u : Nat) : List Nat :=
  (List.range net.length).filter (fun j => decide (u ∈ (net.getD j defaultCons).scope))

def get_all_unasgn_vars (S : State) : List Nat :=
  (List.range S.length).filter (fun u => !isAssigned S u)

/-! ## The propagators (`propagators.py`) -/

/-- The constraint loop of `prop_BT` (`propagators.py` lines 81-89):
for each listed constraint with no unassigned scope variable, check the
tuple of assigned values; fail on the first violated one. -/
def btLoop (net : List Cons) (S : State) : List Nat → Bool
  | [] => true
  | j :: rest =>
    let c := net.getD j defaultCons
    if get_n_unasgn S c = 0 then
      let vals := c.scope.map (fun u => get_assigned_value S u)
      if check c vals then btLoop net S rest else false
    else btLoop net S rest

/-- `prop_BT` (`propagators.py` lines 75-89). -/
def prop_BT (net : List Cons) (S : State) (newVar : Option Nat) :
    Bool × List (Nat × Int) × State :=
  match newVar with
  | none => (true, [], S)
  | some v => (btLoop net S (get_cons_with_var net v), [], S)

/-- The current-domain snapshot built by `prop_FC`
(`propagators.py` lines 105-108): iterate the mask by index, collecting the
unpruned domain values. -/
def fcSnapshot (S : State) (u : Nat) : List Int :=
  (List.range (getVarS S u).curdom.length).filterMap (fun idx =>
    if (getVarS S u).curdom.getD idx false then some ((getVarS S u).dom.getD idx 0)
    else none)

/-- The value loop of `prop_FC` (`propagators.py` lines 112-125): for each
snapshot value, hypothetically assign it, collect the scope's assigned
values, unassign, prune on a failed check, and fail once the current
domain is empty. -/
def fcVals (c : Cons) (x : Nat) :
    List Int → State → List (Nat × Int) → Bool × State × List (Nat × Int)
  | [], S, acc => (true, S, acc)
  | xVal :: rest, S, acc =>
    let S1 := assign S x xVal
    let vals := c.scope.map (fun u => get_assigned_value S1 u)
    let S2 := unassign S1 x
    let next := if check c vals then (S2, acc)
                else (prune_value S2 x xVal, acc ++ [(x, xVal)])
    if cur_domain next.1 x = [] then (false, next.1, next.2)
    else fcVals c x rest next.1 next.2

/-- The constraint loop of `prop_FC` (`propagators.py` lines 102-126):
process each candidate constraint with exactly one unassigned variable.
Note that the empty-domain pre-check (line 110-111) returns an empty
pruned list, discarding the accumulator. -/
def fcLoop (net : List Cons) :
    List Nat → State → List (Nat × Int) → Bool × State × List (Nat × Int)
  | [], S, acc => (true, S, acc)
  | j :: rest, S, acc =>
    let c := net.getD j defaultCons
    if get_n_unasgn S c = 1 then
      let x := (get_unasgn_vars S c).headD 0
      let xdom := fcSnapshot S x
      if cur_domain S x = [] then (false, S, [])
      else
        match fcVals c x xdom S acc with
        | (true, S', acc') => fcLoop net rest S' acc'
        | (false, S', acc') => (false, S', acc')
    else fcLoop net rest S acc

/-- `prop_FC` (`propagators.py` lines 91-126). -/
def prop_FC (net : List Cons) (S : State) (newVar : Option Nat) :
    Bool × State × List (Nat × Int) :=
  let consList := match newVar with
    | some v => get_cons_with_var net v
    | none => List.range net.length
  fcLoop net consList S []

/-- `enqueue` (`propagators.py` lines 168-176): append at the back. -/
def enqueue (lst : List Nat) (v : Nat) : List Nat := lst ++ [v]

/-- `dequeue` (`propagators.py` lines 178-186): pop from the front. -/
def dequeue (lst : List Nat) : Nat × List Nat := (lst.headD 0, lst.tail)

/-- The for-loop inside the per-prune enqueue step of `prop_GAC`
(`propagators.py` lines 157-159): enqueue each listed constraint unless it
is already in the worklist and bears the same name as the dequeued
constraint `c`. -/
def enqueueFold (net : List Cons) (c : Nat) : List Nat → List Nat → List Nat
  | q, [] => q
  | q, cv :: rest =>
    enqueueFold net c
      (if cv ∉ q ∨ (net.getD cv defaultCons).name ≠ (net.getD c defaultCons).name
       then enqueue q cv else q) rest

/-- The per-prune enqueue step of `prop_GAC`
(`propagators.py` lines 155-159): run the enqueue loop over all
constraints referencing the pruned variable. -/
def enqueueStep (net : List Cons) (c : Nat) (q : List Nat) (u : Nat) : List Nat :=
  enqueueFold net c q (get_cons_with_var net u)

/-- The per-variable index scan of `prop_GAC`
(`propagators.py` lines 146-162): for each mask index, count absent
values; prune, record and enqueue when a present value not already in the
pruned list has no support. -/
def scanVals (net : List Cons) (c : Nat) (u : Nat) :
    List Nat → State → List (Nat × Int) → List Nat → Nat →
    State × List (Nat × Int) × List Nat × Nat
  | [], S, pr, q, cnt => (S, pr, q, cnt)
  | idx :: rest, S, pr, q, cnt =>
    if (getVarS S u).curdom.getD idx false then
      let val := (getVarS S u).dom.getD idx 0
      if (u, val) ∈ pr then scanVals net c u rest S pr q cnt
      else if !has_support S (net.getD c defaultCons) u val then
        scanVals net c u rest (prune_value S u val) (pr ++ [(u, val)])
          (enqueueStep net c q u) (cnt + 1)
      else scanVals net c u rest S pr q cnt
    else scanVals net c u rest S pr q (cnt + 1)

/-- The scope scan of one dequeued constraint in `prop_GAC`
(`propagators.py` lines 140-165): skip assigned variables; after scanning
a variable, fail if its absent-value count equals its full domain size. -/
def scanScope (net : List Cons) (c : Nat) :
    List Nat → State → List (Nat × Int) → List Nat →
    Bool × State × List (Nat × Int) × List Nat
  | [], S, pr, q => (true, S, pr, q)
  | u :: us, S, pr, q =>
    if isAssigned S u then scanScope net c us S pr q
    else
      match scanVals net c u (List.range (getVarS S u).curdom.length) S pr q 0 with
      | (S', pr', q', cnt) =>
        if cnt = domain_size S' u then (false, S', pr', q')
        else scanScope net c us S' pr' q'

/-- The worklist loop of `prop_GAC` (`propagators.py` lines 138-166),
with explicit fuel (the recursion is bounded by `gacFuel` below) and a
ghost accumulator `tch` recording every constraint that has ever been on
the worklist (the constraints reachable transitively from the seed set).
The ghost accumulator is never read by the algorithm. -/
def gacLoopF (net : List Cons) :
    Nat → List Nat → State → List (Nat × Int) → List Nat →
    Option (Bool × State × List (Nat × Int) × List Nat)
  | 0, _, _, _, _ => none
  | fuel + 1, queue, S, pr, tch =>
    match queue with
    | [] => some (true, S, pr, tch)
    | _ :: _ =>
      let d := dequeue queue
      match scanScope net d.1 (net.getD d.1 defaultCons).scope S pr d.2 with
      | (true, S', pr', q') => gacLoopF net fuel q' S' pr' (tch ++ q')
      | (false, S', pr', q') => some (false, S', pr', tch ++ q')

def totalDomLen (S : State) : Nat :=
  ((List.range S.length).map (fun u => (getVarS S u).dom.length)).sum

/-- A fuel amount sufficient for the worklist loop to reach its fixpoint
(proved below). -/
def gacFuel (net : List Cons) (S : State) (q : List Nat) : Nat :=
  (totalDomLen S + 1) * (net.length + 1) + q.length + 1

/-- The seed worklist of `prop_GAC` (`propagators.py` lines 132-135):
all constraints, or the constraints referencing the newly assigned
variable. -/
def gacSeed (net : List Cons) (newVar : Option Nat) : List Nat :=
  match newVar with
  | none => List.range net.length
  | some v => get_cons_with_var net v

/-- `prop_GAC` (`propagators.py` lines 128-166) with the ghost
reachable-constraint set kept in the result. -/
def gacRun (net : List Cons) (S : State) (newVar : Option Nat) :
    Bool × State × List (Nat × Int) × List Nat :=
  let seed := gacSeed net newVar
  match gacLoopF net (gacFuel net S seed) seed S [] seed with
  | some r => r
  | none => (false, S, [], seed)

/-- `prop_GAC` (`propagators.py` lines 128-166): the observable result. -/
def prop_GAC (net : List Cons) (S : State) (newVar : Option Nat) :
    Bool × State × List (Nat × Int) :=
  ((gacRun net S newVar).1, (gacRun net S newVar).2.1, (gacRun net S newVar).2.2.1)

/-- The scan of `ord_mrv` (`propagators.py` lines 189-197), carrying the
minimal current-domain size found so far and the first variable attaining
it (`none` models the initial `float('inf')`). -/
def mrvLoop (S : State) : List Nat → Option (Nat × Nat) → Option (Nat × Nat)
  | [], best => best
  | u :: rest, best =>
    match best with
    | none => mrvLoop S rest (some (u, cur_domain_size S u))
    | some (bu, bs) =>
      if cur_domain_size S u < bs then mrvLoop S rest (some (u, cur_domain_size S u))
      else mrvLoop S rest (some (bu, bs))

/-- `ord_mrv` (`propagators.py` lines 189-197). -/
def ord_mrv (S : State) : Option Nat :=
  (mrvLoop S (get_all_unasgn_vars S) none).map (fun p => p.1)

/-! ## Well-formedness predicates and specification statements -/

/-- Every variable's mask is parallel to its domain. -/
def masksOK (S : State) : Prop := ∀ v ∈ S, v.curdom.length = v.dom.length

/-- Every variable's original domain is duplicate-free (the domain is a
universe of values). -/
def domsNodup (S : State) : Prop := ∀ v ∈ S, v.dom.Nodup

/-- Every constraint's scope references existing variables. -/
def scopesOK (net : List Cons) (S : State) : Prop :=
  ∀ c ∈ net, ∀ u ∈ c.scope, u < S.length

/-- Constraint `c` is arc-consistent in state `S`: every value remaining in
the current domain of every unassigned variable of its scope has support
under it. -/
def arcConsistent (net : List Cons) (S : State) (c : Nat) : Prop :=
  ∀ u ∈ (net.getD c defaultCons).scope, isAssigned S u = false →
    ∀ val ∈ cur_domain S u, has_support S (net.getD c defaultCons) u val = true

/-- Every recorded pruned pair is absent from the current domain. -/
def prunedAbsent (S : State) (pr : List (Nat × Int)) : Prop :=
  ∀ p ∈ pr, p.2 ∉ cur_domain S p.1

/-- Every recorded pruned pair names an existing variable and a value of
its original domain. -/
def prunedValid (S : State) (pr : List (Nat × Int)) : Prop :=
  ∀ p ∈ pr, p.1 < S.length ∧ p.2 ∈ (getVarS S p.1).dom

instance (S : State) : Decidable (masksOK S) :=
  List.decidableBAll _ S

instance (S : State) : Decidable (domsNodup S) :=
  List.decidableBAll _ S

instance (net : List Cons) (S : State) : Decidable (scopesOK net S) :=
  List.decidableBAll _ net

/-! ## The Futoshiki model constructors (`futoshiki_csp.py`) -/

/-- A cell of the input grid: a number (even columns), or one of the
inequality characters `<`, `>`, `.` (odd columns). -/
inductive Cell where
  | num (n : Int)
  | lt
  | gt
  | dot
deriving DecidableEq, Repr

def cellStr : Cell → String
  | .num n => toString n
  | .lt => "<"
  | .gt => ">"
  | .dot => "."

/-- The numeric value of a cell (only meaningful for `num` cells). -/
def cellVal : Cell → Int
  | .num n => n
  | _ => 0

/-- `str(row_idx) + ' , ' + str(item_idx//2)` (`futoshiki_csp.py` line 49). -/
def varName (r c : Nat) : String := toString r ++ " , " ++ toString c

/-- `list(range(1, board_size + 1))` as `Int` values. -/
def posVals (bs : Nat) : List Int := (List.range bs).map (fun i => (i : Int) + 1)

/-- The variable for a grid cell: domain `1..board_size`, full mask,
unassigned (`futoshiki_csp.py` lines 49-51). -/
def mkGridVar (bs r c : Nat) : Var :=
  ⟨varName r c, posVals bs, List.replicate bs true, none⟩

/-- `[a, b)` as natural numbers. -/
def rangeFromTo (a b : Nat) : List Nat := (List.range (b - a)).map (· + a)

/-- Satisfying tuples for `>` (`futoshiki_csp.py` lines 79-81):
`(j, i)` for `1 ≤ i < j ≤ board_size`. -/
def gtTuples (bs : Nat) : List (List Int) :=
  (rangeFromTo 1 bs).flatMap (fun i =>
    (rangeFromTo (i + 1) (bs + 1)).map (fun j => [(j : Int), (i : Int)]))

/-- Satisfying tuples for `<` (`futoshiki_csp.py` lines 84-87):
`(i, j)` for `1 ≤ i < j ≤ board_size`. -/
def ltTuples (bs : Nat) : List (List Int) :=
  (rangeFromTo 1 bs).flatMap (fun i =>
    (rangeFromTo (i + 1) (bs + 1)).map (fun j => [(i : Int), (j : Int)]))

/-- `itertools.permutations(pos_vals, 2)` on a duplicate-free list:
ordered pairs of distinct values. -/
def perm2 (l : List Int) : List (List Int) :=
  l.flatMap (fun a => (l.filter (fun b => b ≠ a)).map (fun b => [a, b]))

/-- The variables of the grid in row-major order, one row at a time
(`futoshiki_csp.py` lines 43-61). -/
def gridVars (bs : Nat) (grid : List (List Cell)) : List Var :=
  (List.range grid.length).flatMap (fun r => (List.range bs).map (fun c => mkGridVar bs r c))

/-- The unary constraints for pre-filled cells (`futoshiki_csp.py`
lines 52-58): scope is the cell's variable index, the single satisfying
tuple is the given value. -/
def unaryCons (bs : Nat) (grid : List (List Cell)) : List Cons :=
  (List.range grid.length).flatMap (fun r =>
    (List.range bs).filterMap (fun c =>
      let item := (grid.getD r []).getD (2 * c) (Cell.num 0)
      if item ≠ Cell.num 0 then
        some ⟨varName r c ++ " unary", [r * bs + c], [[cellVal item]]⟩
      else none))

/-- The row inequality constraints of one row (`futoshiki_csp.py`
lines 66-91): for each odd cell that is not `.`, a `<` or `>` constraint
over the two adjacent cell variables; any other character raises
`ValueError`. -/
def rowIneqRow (bs r : Nat) (row : List Cell) : Except String (List Cons) :=
  (List.range (bs - 1)).foldlM (fun acc c =>
    let item := row.getD (2 * c + 1) Cell.dot
    if item = Cell.dot then pure acc
    else
      let cname := varName r c ++ cellStr item ++ varName r (c + 1)
      let scope := [r * bs + c, r * bs + (c + 1)]
      match item with
      | Cell.gt => pure (acc ++ [⟨cname, scope, gtTuples bs⟩])
      | Cell.lt => pure (acc ++ [⟨cname, scope, ltTuples bs⟩])
      | _ => Except.error ("incorrect board character " ++ cellStr item)) []

/-- All row inequality constraints (`futoshiki_csp.py` lines 67-91). -/
def ineqCons (bs : Nat) (grid : List (List Cell)) : Except String (List Cons) :=
  (List.range grid.length).foldlM (fun acc r => do
    let rc ← rowIneqRow bs r (grid.getD r [])
    pure (acc ++ rc)) []

/-- The binary not-equal constraints over all ordered pairs of distinct
cells of each row (`futoshiki_csp.py` lines 96-108). -/
def rowNeqCons (bs : Nat) : List Cons :=
  (List.range bs).flatMap (fun r =>
    (List.range bs).flatMap (fun c1 =>
      (List.range bs).filterMap (fun c2 =>
        if c1 ≠ c2 then
          some ⟨varName r c1 ++ " not equal " ++ varName r c2,
                [r * bs + c1, r * bs + c2], perm2 (posVals bs)⟩
        else none)))

/-- The binary not-equal constraints over all ordered pairs of distinct
cells of each column (`futoshiki_csp.py` lines 111-123). -/
def colNeqCons (bs : Nat) : List Cons :=
  (List.range bs).flatMap (fun c =>
    (List.range bs).flatMap (fun r1 =>
      (List.range bs).filterMap (fun r2 =>
        if r1 ≠ r2 then
          some ⟨varName r1 c ++ " not equal " ++ varName r2 c,
                [r1 * bs + c, r2 * bs + c], perm2 (posVals bs)⟩
        else none)))

/-- The n-ary all-different constraints over each row
(`futoshiki_csp.py` lines 192-203): satisfying tuples are all
permutations of the value range. -/
def rowAllDiffCons (bs : Nat) : List Cons :=
  (List.range bs).map (fun r =>
    ⟨"all-diff row " ++ toString r,
     (List.range bs).map (fun c => r * bs + c),
     (posVals bs).permutations⟩)

/-- The n-ary all-different constraints over each column
(`futoshiki_csp.py` lines 206-216). -/
def colAllDiffCons (bs : Nat) : List Cons :=
  (List.range bs).map (fun c =>
    ⟨"all-diff column " ++ toString c,
     (List.range bs).map (fun r => r * bs + c),
     (posVals bs).permutations⟩)

/-- The row-major index matrix returned alongside the CSP. -/
def varIdx2d (bs : Nat) (grid : List (List Cell)) : List (List Nat) :=
  (List.range grid.length).map (fun r => (List.range bs).map (fun c => r * bs + c))

/-- `futoshiki_csp_model_1` (`futoshiki_csp.py` lines 30-125): board size
is `(len(futo_grid[0]) + 1) // 2`, asserted equal to the number of rows;
then variables, unary constraints, row inequality constraints, and binary
not-equal row and column constraints are built in order. -/
def futoshiki_csp_model_1 (grid : List (List Cell)) :
    Except String (CSP × List (List Nat)) :=
  match grid with
  | [] => Except.error "IndexError: list index out of range"
  | row0 :: _ =>
    let bs := (row0.length + 1) / 2
    if bs = grid.length then do
      let ic ← ineqCons bs grid
      let allCons := unaryCons bs grid ++ ic ++ rowNeqCons bs ++ colNeqCons bs
      pure (⟨"Futoshiki Model 1", gridVars bs grid, allCons⟩, varIdx2d bs grid)
    else Except.error "AssertionError"

/-- `futoshiki_csp_model_2` (`futoshiki_csp.py` lines 128-218): same
structure, with the binary not-equal constraints replaced by n-ary
all-different constraints. -/
def futoshiki_csp_model_2 (grid : List (List Cell)) :
    Except String (CSP × List (List Nat)) :=
  match grid with
  | [] => Except.error "IndexError: list index out of range"
  | row0 :: _ =>
    let bs := (row0.length + 1) / 2
    if bs = grid.length then do
      let ic ← ineqCons bs grid
      let allCons := unaryCons bs grid ++ ic ++ rowAllDiffCons bs ++ colAllDiffCons bs
      pure (⟨"Futoshiki Model 2", gridVars bs grid, allCons⟩, varIdx2d bs grid)
    else Except.error "AssertionError"

/-! ## Basic state-access lemmas -/

lemma getVarS_set_self {S : State} {u : Nat} (v : Var) (h : u < S.length) :
    getVarS (S.set u v) u = v := by
  simp [getVarS, List.getD_eq_getElem?_getD, List.getElem?_set_self h]

lemma getVarS_set_ne {S : State} {u w : Nat} (v : Var) (h : w ≠ u) :
    getVarS (S.set u v) w = getVarS S w := by
  simp [getVarS, List.getD_eq_getElem?_getD, List.getElem?_set_ne (Ne.symm h)]

lemma set_getVarS (S : State) (u : Nat) : S.set u (getVarS S u) = S := by
  rcases Nat.lt_or_ge u S.length with h | h
  · apply List.ext_getElem?
    intro n
    rcases eq_or_ne u n with rfl | hn
    · rw [List.getElem?_set_self h, List.getElem?_eq_getElem h]
      simp [getVarS, List.getD_eq_getElem S defaultVar h]
      simp [List.getElem?_eq_getElem h]
    · exact List.getElem?_set_ne hn
  · exact List.set_eq_of_length_le h

lemma getVarS_mem {S : State} {u : Nat} (h : u < S.length) : getVarS S u ∈ S := by
  rw [getVarS, List.getD_eq_getElem S defaultVar h]
  exact List.getElem_mem h

lemma getVarS_dom_nodup {S : State} (hn : domsNodup S) (u : Nat) :
    (getVarS S u).dom.Nodup := by
  rcases Nat.lt_or_ge u S.length with h | h
  · exact hn _ (getVarS_mem h)
  · rw [getVarS, List.getD_eq_default _ _ h]
    exact List.nodup_nil

lemma getVarS_mask_len {S : State} (hm : masksOK S) (u : Nat) :
    (getVarS S u).curdom.length = (getVarS S u).dom.length := by
  rcases Nat.lt_or_ge u S.length with h | h
  · exact hm _ (getVarS_mem h)
  · simp only [getVarS, List.getD_eq_default _ _ h]
    rfl

/-! ## Mask lemmas -/

lemma maskOff_length : ∀ (d : List Int) (m : List Bool) (x : Int),
    (maskOff d m x).length = m.length
  | [], m, x => rfl
  | _ :: _, [], x => rfl
  | d :: ds, b :: ms, x => by
    by_cases h : d = x <;> simp [maskOff, h, maskOff_length ds ms x]

lemma maskFilter_cons_true (d : Int) (ds : List Int) (ms : List Bool) :
    maskFilter (d :: ds) (true :: ms) = d :: maskFilter ds ms := by
  simp [maskFilter]

lemma maskFilter_cons_false (d : Int) (ds : List Int) (ms : List Bool) :
    maskFilter (d :: ds) (false :: ms) = maskFilter ds ms := by
  simp [maskFilter]

lemma maskFilter_nil_right : ∀ (d : List Int), maskFilter d [] = []
  | [] => rfl
  | _ :: _ => rfl

lemma maskOff_cons_eq {d x : Int} (ds : List Int) (b : Bool) (ms : List Bool)
    (h : d = x) : maskOff (d :: ds) (b :: ms) x = false :: ms := by
  simp [maskOff, h]

lemma maskOff_cons_ne {d x : Int} (ds : List Int) (b : Bool) (ms : List Bool)
    (h : d ≠ x) : maskOff (d :: ds) (b :: ms) x = b :: maskOff ds ms x := by
  simp [maskOff, h]

lemma maskFilter_sublist : ∀ (d : List Int) (m : List Bool),
    List.Sublist (maskFilter d m) d
  | [], _ => by simp [maskFilter]
  | _ :: _, [] => by simp [maskFilter]
  | d :: ds, b :: ms => by
    cases b with
    | true =>
      simpa [maskFilter] using List.Sublist.cons₂ d (maskFilter_sublist ds ms)
    | false =>
      simp only [maskFilter, if_neg Bool.false_ne_true]
      exact (maskFilter_sublist ds ms).trans (List.sublist_cons_self d ds)

lemma mem_maskFilter_sub {d : List Int} {m : List Bool} {a : Int}
    (h : a ∈ maskFilter d m) : a ∈ d := (maskFilter_sublist d m).mem h

lemma mem_maskFilter_iff : ∀ (d : List Int) (m : List Bool) (a : Int),
    a ∈ maskFilter d m ↔
      ∃ i, i < d.length ∧ m.getD i false = true ∧ d.getD i 0 = a
  | [], m, a => by simp [maskFilter]
  | _ :: _, [], a => by
    constructor
    · intro h
      simp [maskFilter] at h
    · rintro ⟨i, -, hb, -⟩
      simp at hb
  | d :: ds, b :: ms, a => by
    constructor
    · intro h
      cases b with
      | true =>
        rcases List.mem_cons.mp h with rfl | h
        · exact ⟨0, by simp, by simp, by simp⟩
        · obtain ⟨i, hi, hb, ha⟩ := (mem_maskFilter_iff ds ms a).mp h
          refine ⟨i + 1, by simpa using hi, ?_, ?_⟩
          · rwa [List.getD_cons_succ]
          · rwa [List.getD_cons_succ]
      | false =>
        simp only [maskFilter, if_neg Bool.false_ne_true] at h
        obtain ⟨i, hi, hb, ha⟩ := (mem_maskFilter_iff ds ms a).mp h
        refine ⟨i + 1, by simpa using hi, ?_, ?_⟩
        · rwa [List.getD_cons_succ]
        · rwa [List.getD_cons_succ]
    · rintro ⟨i, hi, hb, ha⟩
      match i with
      | 0 =>
        rw [List.getD_cons_zero] at hb ha
        subst hb
        subst ha
        simp [maskFilter]
      | i + 1 =>
        rw [List.getD_cons_succ] at hb ha
        simp only [List.length_cons, Nat.add_lt_add_iff_right] at hi
        have hmem := (mem_maskFilter_iff ds ms a).mpr ⟨i, hi, hb, ha⟩
        cases b <;> simp [maskFilter, hmem]

lemma mem_maskFilter_maskOff : ∀ (d : List Int) (m : List Bool) (x a : Int),
    d.Nodup → (a ∈ maskFilter d (maskOff d m x) ↔ a ∈ maskFilter d m ∧ a ≠ x)
  | [], m, x, a, _ => by simp [maskFilter, maskOff]
  | e :: ds, [], x, a, _ => by
    constructor
    · intro h
      simp [maskOff, maskFilter] at h
    · rintro ⟨h, -⟩
      simp [maskFilter] at h
  | e :: ds, b :: ms, x, a, hd => by
    have hds : ds.Nodup := hd.of_cons
    by_cases hex : e = x
    · have hnotin : x ∉ ds := hex ▸ (List.nodup_cons.mp hd).1
      have hsub : a ∈ maskFilter ds ms → a ≠ x := fun h he =>
        hnotin (he ▸ mem_maskFilter_sub h)
      rw [maskOff_cons_eq ds b ms hex, maskFilter_cons_false]
      cases b with
      | true =>
        rw [maskFilter_cons_true, List.mem_cons]
        constructor
        · intro h
          exact ⟨Or.inr h, hsub h⟩
        · rintro ⟨h, hne⟩
          rcases h with he | h
          · exact absurd (he.trans hex) hne
          · exact h
      | false =>
        rw [maskFilter_cons_false]
        exact ⟨fun h => ⟨h, hsub h⟩, fun h => h.1⟩
    · have IH := mem_maskFilter_maskOff ds ms x a hds
      rw [maskOff_cons_ne ds b ms hex]
      cases b with
      | true =>
        rw [maskFilter_cons_true, maskFilter_cons_true, List.mem_cons, List.mem_cons]
        constructor
        · intro h
          rcases h with he | h
          · exact ⟨Or.inl he, he ▸ hex⟩
          · exact ⟨Or.inr (IH.mp h).1, (IH.mp h).2⟩
        · rintro ⟨h, hne⟩
          rcases h with he | h
          · exact Or.inl he
          · exact Or.inr (IH.mpr ⟨h, hne⟩)
      | false =>
        rw [maskFilter_cons_false, maskFilter_cons_false]
        exact IH

/-! ## Pruning and assignment state lemmas -/

lemma prune_length (S : State) (u : Nat) (val : Int) :
    (prune_value S u val).length = S.length := List.length_set S u _

lemma getVarS_prune_ne {S : State} {u w : Nat} (val : Int) (h : w ≠ u) :
    getVarS (prune_value S u val) w = getVarS S w := getVarS_set_ne _ h

lemma prune_of_ge {S : State} {u : Nat} (val : Int) (h : S.length ≤ u) :
    prune_value S u val = S := List.set_eq_of_length_le h

lemma getVarS_prune_self {S : State} {u : Nat} (val : Int) (h : u < S.length) :
    getVarS (prune_value S u val) u =
      { getVarS S u with
        curdom := maskOff (getVarS S u).dom (getVarS S u).curdom val } :=
  getVarS_set_self _ h

lemma prune_dom (S : State) (u : Nat) (val : Int) (w : Nat) :
    (getVarS (prune_value S u val) w).dom = (getVarS S w).dom := by
  rcases eq_or_ne w u with rfl | hw
  · rcases Nat.lt_or_ge w S.length with h | h
    · rw [getVarS_prune_self val h]
    · rw [prune_of_ge val h]
  · rw [getVarS_prune_ne val hw]

lemma prune_assigned (S : State) (u : Nat) (val : Int) (w : Nat) :
    (getVarS (prune_value S u val) w).assignedValue =
      (getVarS S w).assignedValue := by
  rcases eq_or_ne w u with rfl | hw
  · rcases Nat.lt_or_ge w S.length with h | h
    · rw [getVarS_prune_self val h]
    · rw [prune_of_ge val h]
  · rw [getVarS_prune_ne val hw]

lemma prune_name (S : State) (u : Nat) (val : Int) (w : Nat) :
    (getVarS (prune_value S u val) w).name = (getVarS S w).name := by
  rcases eq_or_ne w u with rfl | hw
  · rcases Nat.lt_or_ge w S.length with h | h
    · rw [getVarS_prune_self val h]
    · rw [prune_of_ge val h]
  · rw [getVarS_prune_ne val hw]

lemma prune_mask_len (S : State) (u : Nat) (val : Int) (w : Nat) :
    (getVarS (prune_value S u val) w).curdom.length =
      (getVarS S w).curdom.length := by
  rcases eq_or_ne w u with rfl | hw
  · rcases Nat.lt_or_ge w S.length with h | h
    · rw [getVarS_prune_self val h]
      exact maskOff_length _ _ _
    · rw [prune_of_ge val h]
  · rw [getVarS_prune_ne val hw]

lemma prune_masksOK {S : State} (hm : masksOK S) (u : Nat) (val : Int) :
    masksOK (prune_value S u val) := by
  intro v hv
  rcases List.mem_or_eq_of_mem_set hv with h | rfl
  · exact hm v h
  · simp only [maskOff_length]
    exact getVarS_mask_len hm u

lemma prune_domsNodup {S : State} (hn : domsNodup S) (u : Nat) (val : Int) :
    domsNodup (prune_value S u val) := by
  intro v hv
  rcases List.mem_or_eq_of_mem_set hv with h | rfl
  · exact hn v h
  · exact getVarS_dom_nodup hn u

lemma cur_domain_of_ge {S : State} {u : Nat} (h : S.length ≤ u) :
    cur_domain S u = [] := by
  simp only [cur_domain, getVarS, List.getD_eq_default _ _ h]
  rfl

lemma mem_cur_domain_prune {S : State} (hn : domsNodup S) (u : Nat) (val : Int)
    (w : Nat) (a : Int) :
    a ∈ cur_domain (prune_value S u val) w ↔
      a ∈ cur_domain S w ∧ ¬(w = u ∧ a = val) := by
  rcases eq_or_ne w u with rfl | hw
  · rcases Nat.lt_or_ge w S.length with h | h
    · rw [cur_domain, getVarS_prune_self val h]
      have := mem_maskFilter_maskOff (getVarS S w).dom (getVarS S w).curdom val a
        (getVarS_dom_nodup hn w)
      simp only at this
      rw [this, cur_domain]
      constructor
      · rintro ⟨h1, h2⟩
        exact ⟨h1, fun hc => h2 hc.2⟩
      · rintro ⟨h1, h2⟩
        exact ⟨h1, fun hc => h2 ⟨rfl, hc⟩⟩
    · rw [prune_of_ge val h, cur_domain_of_ge h]
      simp
  · rw [cur_domain, getVarS_prune_ne val hw, ← cur_domain]
    constructor
    · intro h
      exact ⟨h, fun hc => hw hc.1⟩
    · exact fun h => h.1

lemma cur_domain_prune_subset {S : State} (hn : domsNodup S) (u : Nat)
    (val : Int) (w : Nat) {a : Int}
    (h : a ∈ cur_domain (prune_value S u val) w) : a ∈ cur_domain S w :=
  ((mem_cur_domain_prune hn u val w a).mp h).1

/-- A state update that only changes the assigned value leaves every
variable's mask untouched. -/
lemma curdom_set_assigned (S : State) (u : Nat) (o : Option Int) (w : Nat) :
    (getVarS (S.set u { getVarS S u with assignedValue := o }) w).curdom =
      (getVarS S w).curdom := by
  rcases eq_or_ne w u with rfl | hw
  · rcases Nat.lt_or_ge w S.length with h | h
    · rw [getVarS_set_self _ h]
    · rw [List.set_eq_of_length_le h]
  · rw [getVarS_set_ne _ hw]

lemma dom_set_assigned (S : State) (u : Nat) (o : Option Int) (w : Nat) :
    (getVarS (S.set u { getVarS S u with assignedValue := o }) w).dom =
      (getVarS S w).dom := by
  rcases eq_or_ne w u with rfl | hw
  · rcases Nat.lt_or_ge w S.length with h | h
    · rw [getVarS_set_self _ h]
    · rw [List.set_eq_of_length_le h]
  · rw [getVarS_set_ne _ hw]

lemma assign_curdom (S : State) (u : Nat) (val : Int) (w : Nat) :
    (getVarS (assign S u val) w).curdom = (getVarS S w).curdom := by
  unfold assign
  split
  · rfl
  · exact curdom_set_assigned S u (some val) w

lemma assign_dom (S : State) (u : Nat) (val : Int) (w : Nat) :
    (getVarS (assign S u val) w).dom = (getVarS S w).dom := by
  unfold assign
  split
  · rfl
  · exact dom_set_assigned S u (some val) w

lemma unassign_curdom (S : State) (u : Nat) (w : Nat) :
    (getVarS (unassign S u) w).curdom = (getVarS S w).curdom := by
  unfold unassign
  split
  · exact curdom_set_assigned S u none w
  · rfl

lemma unassign_dom (S : State) (u : Nat) (w : Nat) :
    (getVarS (unassign S u) w).dom = (getVarS S w).dom := by
  unfold unassign
  split
  · exact dom_set_assigned S u none w
  · rfl

lemma cur_domain_assign (S : State) (u : Nat) (val : Int) (w : Nat) :
    cur_domain (assign S u val) w = cur_domain S w := by
  rw [cur_domain, cur_domain, assign_curdom, assign_dom]

lemma cur_domain_unassign (S : State) (u : Nat) (w : Nat) :
    cur_domain (unassign S u) w = cur_domain S w := by
  rw [cur_domain, cur_domain, unassign_curdom, unassign_dom]

/-- Hypothetically assigning an unassigned variable and then unassigning
it restores the exact state. -/
lemma assign_unassign {S : State} {u : Nat}
    (h : (getVarS S u).assignedValue = none) (val : Int) :
    unassign (assign S u val) u = S := by
  have hA : isAssigned S u = false := by simp [isAssigned, h]
  by_cases hin : in_cur_domain S u val = true
  · rcases Nat.lt_or_ge u S.length with hlt | hge
    · have hstep : assign S u val =
          S.set u { getVarS S u with assignedValue := some val } := by
        unfold assign
        rw [hA, hin]
        simp
      rw [hstep]
      have hA2 : isAssigned (S.set u { getVarS S u with assignedValue := some val }) u
          = true := by
        simp [isAssigned, getVarS_set_self _ hlt]
      unfold unassign
      rw [hA2]
      simp only [if_pos rfl, getVarS_set_self _ hlt]
      rw [List.set_set]
      have hv : ({ getVarS S u with assignedValue := none } : Var) = getVarS S u := by
        rcases hg : getVarS S u with ⟨n, d, c, a⟩
        rw [hg] at h
        simp only at h
        simp [h]
      rw [hv, set_getVarS]
      simp
    · have hstep : assign S u val = S := by
        unfold assign
        rw [List.set_eq_of_length_le hge]
        split <;> rfl
      rw [hstep]
      unfold unassign
      rw [hA]
      simp
  · have hstep : assign S u val = S := by
      unfold assign
      rw [hA, Bool.false_or]
      have : (!in_cur_domain S u val) = true := by
        simp [Bool.eq_false_iff.mpr]
        exact Bool.not_eq_true _ ▸ (by simpa using hin)
      rw [this]
      simp
    rw [hstep]
    unfold unassign
    rw [hA]
    simp

lemma isAssigned_eq_false_iff {S : State} {u : Nat} :
    isAssigned S u = false ↔ (getVarS S u).assignedValue = none := by
  unfold isAssigned
  cases (getVarS S u).assignedValue <;> simp

/-! ## Forward checking: frame property on assignments -/

lemma fcVals_assigned (c : Cons) (x : Nat) :
    ∀ (vls : List Int) (S : State) (acc : List (Nat × Int)),
      (getVarS S x).assignedValue = none →
      ∀ w, (getVarS (fcVals c x vls S acc).2.1 w).assignedValue =
        (getVarS S w).assignedValue
  | [], S, acc, _, w => rfl
  | xVal :: rest, S, acc, hx, w => by
    have hS2 : unassign (assign S x xVal) x = S := assign_unassign hx xVal
    simp only [fcVals, hS2]
    by_cases hc : check c
        (List.map (fun u => get_assigned_value (assign S x xVal) u) c.scope) = true
    · rw [if_pos hc]
      by_cases hd : cur_domain ((S, acc) : State × List (Nat × Int)).1 x = []
      · rw [if_pos hd]
      · rw [if_neg hd]
        exact fcVals_assigned c x rest S acc hx w
    · rw [if_neg hc]
      by_cases hd : cur_domain
          ((prune_value S x xVal, acc ++ [(x, xVal)]) : State × List (Nat × Int)).1 x = []
      · rw [if_pos hd]
        exact prune_assigned S x xVal w
      · rw [if_neg hd]
        have hx' : (getVarS (prune_value S x xVal) x).assignedValue = none := by
          rw [prune_assigned]
          exact hx
        rw [fcVals_assigned c x rest (prune_value S x xVal) (acc ++ [(x, xVal)]) hx' w]
        exact prune_assigned S x xVal w

lemma head_unasgn {S : State} {c : Cons} (h : get_n_unasgn S c = 1) :
    isAssigned S ((get_unasgn_vars S c).headD 0) = false := by
  have hlen : (get_unasgn_vars S c).length = 1 := h
  obtain ⟨a, ha⟩ := List.length_eq_one.mp hlen
  have hmem : a ∈ get_unasgn_vars S c := by rw [ha]; exact List.mem_singleton_self a
  have := List.of_mem_filter hmem
  rw [ha]
  simpa using this

lemma fcLoop_assigned (net : List Cons) :
    ∀ (l : List Nat) (S : State) (acc : List (Nat × Int)) (w : Nat),
      (getVarS (fcLoop net l S acc).2.1 w).assignedValue =
        (getVarS S w).assignedValue
  | [], S, acc, w => rfl
  | j :: rest, S, acc, w => by
    simp only [fcLoop]
    split
    · split
      · rfl
      · set c := net.getD j defaultCons
        set x := (get_unasgn_vars S c).headD 0 with hxdef
        have hx : (getVarS S x).assignedValue = none := by
          rw [← isAssigned_eq_false_iff]
          next h _ => exact head_unasgn h
        have hpres := fcVals_assigned c x (fcSnapshot S x) S acc hx
        split
        next S' acc' heq =>
          rw [fcLoop_assigned net rest S' acc' w]
          have h2 := hpres w
          rw [heq] at h2
          exact h2
        next S' acc' heq =>
          have h2 := hpres w
          rw [heq] at h2
          exact h2
    · exact fcLoop_assigned net rest S acc w

/-- C9: For every network and every call `prop_FC(csp, newVar)`, the
assignment state of every variable after the call equals its assignment
state before the call: each hypothetical assignment FC makes to the single
unassigned variable of a candidate constraint is undone by `unassign`
before the constraint check, on every control path including the failure
returns. -/
theorem prop_FC_preserves_assignments (net : List Cons) (S : State)
    (newVar : Option Nat) (w : Nat) :
    (getVarS (prop_FC net S newVar).2.1 w).assignedValue =
      (getVarS S w).assignedValue := by
  unfold prop_FC
  cases newVar <;> exact fcLoop_assigned net _ S [] w

/-! ## Plain backtracking -/

lemma btLoop_false_iff (net : List Cons) (S : State) :
    ∀ l : List Nat, btLoop net S l = false ↔
      ∃ j ∈ l, get_n_unasgn S (net.getD j defaultCons) = 0 ∧
        check (net.getD j defaultCons)
          ((net.getD j defaultCons).scope.map (fun u => get_assigned_value S u))
          = false
  | [] => by simp [btLoop]
  | j :: rest => by
    simp only [btLoop]
    split
    · split
      next hn hc =>
        rw [btLoop_false_iff net S rest]
        constructor
        · rintro ⟨k, hk, hkk⟩
          exact ⟨k, List.mem_cons_of_mem _ hk, hkk⟩
        · rintro ⟨k, hk, hkn, hkc⟩
          rcases List.mem_cons.mp hk with rfl | hk
          · rw [hc] at hkc
            cases hkc
          · exact ⟨k, hk, hkn, hkc⟩
      next hn hc =>
        simp only [Bool.not_eq_true] at hc
        constructor
        · intro
          exact ⟨j, List.mem_cons_self j rest, hn, hc⟩
        · intro
          rfl
    · next hn =>
      rw [btLoop_false_iff net S rest]
      constructor
      · rintro ⟨k, hk, hkk⟩
        exact ⟨k, List.mem_cons_of_mem _ hk, hkk⟩
      · rintro ⟨k, hk, hkn, hkc⟩
        rcases List.mem_cons.mp hk with rfl | hk
        · exact absurd hkn hn
        · exact ⟨k, hk, hkn, hkc⟩

/-- C7: `prop_BT` always returns an empty prune list; with `newVar = None`
it returns success immediately; with a newly assigned variable it returns
failure iff some constraint referencing that variable whose scope
variables are all assigned is violated by the tuple of their assigned
values.  It never mutates the state. -/
theorem prop_BT_semantics (net : List Cons) (S : State) :
    prop_BT net S none = (true, [], S) ∧
    (∀ v : Nat, (prop_BT net S (some v)).2.1 = [] ∧
      (prop_BT net S (some v)).2.2 = S) ∧
    (∀ v : Nat, (prop_BT net S (some v)).1 = false ↔
      ∃ j ∈ get_cons_with_var net v,
        get_n_unasgn S (net.getD j defaultCons) = 0 ∧
        check (net.getD j defaultCons)
          ((net.getD j defaultCons).scope.map (fun u => get_assigned_value S u))
          = false) := by
  refine ⟨rfl, fun v => ⟨rfl, rfl⟩, fun v => ?_⟩
  exact btLoop_false_iff net S (get_cons_with_var net v)

/-! ## MRV variable ordering -/

lemma mem_get_all_unasgn {S : State} {u : Nat} :
    u ∈ get_all_unasgn_vars S ↔ u < S.length ∧ isAssigned S u = false := by
  simp [get_all_unasgn_vars, List.mem_filter, List.mem_range]

lemma get_all_unasgn_nodup (S : State) : (get_all_unasgn_vars S).Nodup :=
  (List.nodup_range _).filter _

lemma mrvLoop_spec (S : State) : ∀ (l : List Nat) (bu : Nat),
    ∃ ru, mrvLoop S l (some (bu, cur_domain_size S bu)) =
        some (ru, cur_domain_size S ru) ∧
      cur_domain_size S ru ≤ cur_domain_size S bu ∧
      (∀ w ∈ l, cur_domain_size S ru ≤ cur_domain_size S w) ∧
      (ru = bu ∨ ru ∈ l) ∧
      (ru = bu ∨ cur_domain_size S ru < cur_domain_size S bu) ∧
      (∀ l₁ l₂, l = l₁ ++ ru :: l₂ →
        cur_domain_size S ru < cur_domain_size S bu →
        ru ∉ l₁ → ∀ w ∈ l₁, cur_domain_size S ru < cur_domain_size S w)
  | [], bu => by
    refine ⟨bu, rfl, le_refl _, by simp, Or.inl rfl, Or.inl rfl, ?_⟩
    intro l₁ l₂ h
    exact absurd h (by simp)
  | a :: rest, bu => by
    by_cases hlt : cur_domain_size S a < cur_domain_size S bu
    · obtain ⟨ru, heq, hle, hall, hmem, hstrict, htie⟩ := mrvLoop_spec S rest a
      refine ⟨ru, ?_, ?_, ?_, ?_, ?_, ?_⟩
      · simp only [mrvLoop, if_pos hlt]
        exact heq
      · exact le_trans hle (le_of_lt hlt)
      · intro w hw
        rcases List.mem_cons.mp hw with rfl | hw
        · exact hle
        · exact hall w hw
      · rcases hmem with rfl | h
        · exact Or.inr (List.mem_cons_self _ _)
        · exact Or.inr (List.mem_cons_of_mem _ h)
      · exact Or.inr (lt_of_le_of_lt hle hlt)
      · intro l₁ l₂ hdec hru hnotin w hw
        match l₁, hdec with
        | [], _ => exact absurd hw (List.not_mem_nil w)
        | b :: l₁x, hdec =>
          have hb : b = a := (List.cons.injEq _ _ _ _
            |>.mp hdec).1.symm ▸ rfl
          have hrest : rest = l₁x ++ ru :: l₂ :=
            (List.cons.injEq _ _ _ _ |>.mp hdec).2
          have hrua : ru ≠ b := fun h => hnotin (h ▸ List.mem_cons_self b l₁x)
          have hlta : cur_domain_size S ru < cur_domain_size S a := by
            rcases hstrict with rfl | h
            · exact absurd hb.symm (by
                intro hba
                exact hrua (hba ▸ rfl))
            · exact h
          rcases List.mem_cons.mp hw with rfl | hw
          · exact hb ▸ hlta
          · exact htie l₁x l₂ hrest hlta
              (fun h => hnotin (List.mem_cons_of_mem _ h)) w hw
    · obtain ⟨ru, heq, hle, hall, hmem, hstrict, htie⟩ := mrvLoop_spec S rest bu
      have hge : cur_domain_size S bu ≤ cur_domain_size S a := le_of_not_lt hlt
      refine ⟨ru, ?_, hle, ?_, ?_, hstrict, ?_⟩
      · simp only [mrvLoop, if_neg hlt]
        exact heq
      · intro w hw
        rcases List.mem_cons.mp hw with rfl | hw
        · exact le_trans hle hge
        · exact hall w hw
      · rcases hmem with rfl | h
        · exact Or.inl rfl
        · exact Or.inr (List.mem_cons_of_mem _ h)
      · intro l₁ l₂ hdec hru hnotin w hw
        match l₁, hdec with
        | [], _ => exact absurd hw (List.not_mem_nil w)
        | b :: l₁x, hdec =>
          have hb : b = a := ((List.cons.injEq _ _ _ _).mp hdec).1.symm
          have hrest : rest = l₁x ++ ru :: l₂ :=
            ((List.cons.injEq _ _ _ _).mp hdec).2
          rcases List.mem_cons.mp hw with rfl | hw
          · exact hb ▸ lt_of_lt_of_le hru hge
          · exact htie l₁x l₂ hrest hru
              (fun h => hnotin (List.mem_cons_of_mem _ h)) w hw

/-- C8: `ord_mrv` returns an unassigned variable whose current-domain size
is minimal among all unassigned variables, ties broken in favor of the
variable first encountered in enumeration order; it returns the empty
sentinel iff no unassigned variable exists.  It does not mutate the
network (it is a pure function of the state). -/
theorem ord_mrv_correct (S : State) :
    (ord_mrv S = none ↔ get_all_unasgn_vars S = []) ∧
    ∀ u : Nat, ord_mrv S = some u →
      u < S.length ∧ isAssigned S u = false ∧
      (∀ w, w < S.length → isAssigned S w = false →
        cur_domain_size S u ≤ cur_domain_size S w) ∧
      (∀ l₁ l₂, get_all_unasgn_vars S = l₁ ++ u :: l₂ →
        ∀ w ∈ l₁, cur_domain_size S u < cur_domain_size S w) := by
  rcases huv : get_all_unasgn_vars S with - | ⟨a, rest⟩
  · constructor
    · simp [ord_mrv, huv, mrvLoop]
    · intro u hu
      rw [ord_mrv, huv] at hu
      simp [mrvLoop] at hu
  · obtain ⟨ru, heq, hle, hall, hmem, hstrict, htie⟩ := mrvLoop_spec S rest a
    have hrun : ord_mrv S = some ru := by
      rw [ord_mrv, huv]
      simp only [mrvLoop, heq]
      rfl
    constructor
    · rw [hrun]
      simp
    · intro u hu
      rw [hrun] at hu
      have hur : u = ru := by
        injection hu with h
        exact h.symm
      subst hur
      have humem : u ∈ get_all_unasgn_vars S := by
        rw [huv]
        rcases hmem with rfl | h
        · exact List.mem_cons_self _ _
        · exact List.mem_cons_of_mem _ h
      obtain ⟨hulen, huassign⟩ := mem_get_all_unasgn.mp humem
      refine ⟨hulen, huassign, ?_, ?_⟩
      · intro w hw hwassign
        have hwmem : w ∈ get_all_unasgn_vars S := mem_get_all_unasgn.mpr ⟨hw, hwassign⟩
        rw [huv] at hwmem
        rcases List.mem_cons.mp hwmem with rfl | hwmem
        · exact hle
        · exact hall w hwmem
      · intro l₁ l₂ hdec w hw
        have hnodup : (get_all_unasgn_vars S).Nodup := get_all_unasgn_nodup S
        rw [huv, hdec] at hnodup
        have hnotin : u ∉ l₁ := by
          rw [List.nodup_append] at hnodup
          intro hmem1
          exact hnodup.2.2 hmem1 (List.mem_cons_self u l₂)
        match l₁, hdec with
        | [], _ => exact absurd hw (List.not_mem_nil w)
        | b :: l₁x, hdec =>
          have hb : b = a := ((List.cons.injEq _ _ _ _).mp hdec).1.symm
          have hrest : rest = l₁x ++ u :: l₂ :=
            ((List.cons.injEq _ _ _ _).mp hdec).2
          have hua : u ≠ a := by
            intro h
            exact hnotin (h ▸ hb ▸ List.mem_cons_self b l₁x)
          have hulta : cur_domain_size S u < cur_domain_size S a := by
            rcases hstrict with h | h
            · exact absurd h hua
            · exact h
          rcases List.mem_cons.mp hw with rfl | hw
          · exact hb ▸ hulta
          · exact htie l₁x l₂ hrest hulta
              (fun h => hnotin (List.mem_cons_of_mem _ h)) w hw

/-- Witness for C8: on a two-variable state with current-domain sizes 2
and 1, `ord_mrv` returns the size-1 variable and satisfies the MRV
properties. -/
theorem ord_mrv_correct_witness :
    ord_mrv [⟨"a", [1, 2], [true, true], none⟩,
             ⟨"b", [1, 2], [true, false], none⟩] = some 1 ∧
    (1 < ([⟨"a", [1, 2], [true, true], none⟩,
           ⟨"b", [1, 2], [true, false], none⟩] : State).length ∧
     isAssigned [⟨"a", [1, 2], [true, true], none⟩,
                 ⟨"b", [1, 2], [true, false], none⟩] 1 = false ∧
     (∀ w, w < ([⟨"a", [1, 2], [true, true], none⟩,
                 ⟨"b", [1, 2], [true, false], none⟩] : State).length →
        isAssigned [⟨"a", [1, 2], [true, true], none⟩,
                    ⟨"b", [1, 2], [true, false], none⟩] w = false →
        cur_domain_size [⟨"a", [1, 2], [true, true], none⟩,
                         ⟨"b", [1, 2], [true, false], none⟩] 1 ≤
          cur_domain_size [⟨"a", [1, 2], [true, true], none⟩,
                           ⟨"b", [1, 2], [true, false], none⟩] w) ∧
     (∀ l₁ l₂, get_all_unasgn_vars [⟨"a", [1, 2], [true, true], none⟩,
                  ⟨"b", [1, 2], [true, false], none⟩] = l₁ ++ 1 :: l₂ →
        ∀ w ∈ l₁, cur_domain_size [⟨"a", [1, 2], [true, true], none⟩,
                    ⟨"b", [1, 2], [true, false], none⟩] 1 <
          cur_domain_size [⟨"a", [1, 2], [true, true], none⟩,
                           ⟨"b", [1, 2], [true, false], none⟩] w)) :=
  ⟨by decide,
   (ord_mrv_correct [⟨"a", [1, 2], [true, true], none⟩,
                     ⟨"b", [1, 2], [true, false], none⟩]).2 1 (by decide)⟩

/-! ## Forward checking: concrete behaviour at the claimed inputs -/

/-- C2 (code bug): at this input — variable 0 assigned, constraint 0
prunes value 2 from variable 1, and constraint 1's single unassigned
variable 2 has an externally emptied current domain — `prop_FC` hits the
empty-domain pre-check (`propagators.py` line 110) and returns failure
with an EMPTY pruned list, even though the state records the prune of
value 2 from variable 1 (its current domain shrank from \[1, 2\] to
\[1\]).  The prune performed in this call is omitted from the returned
list, contradicting the contract that all prunes be reported. -/
theorem prop_FC_empty_domain_drops_prunes :
    (prop_FC [⟨"c0", [0, 1], [[1, 1]]⟩, ⟨"c1", [0, 2], [[1, 1]]⟩]
        [⟨"A", [1], [true], some 1⟩, ⟨"X0", [1, 2], [true, true], none⟩,
         ⟨"X1", [1], [false], none⟩] (some 0)).1 = false ∧
    (prop_FC [⟨"c0", [0, 1], [[1, 1]]⟩, ⟨"c1", [0, 2], [[1, 1]]⟩]
        [⟨"A", [1], [true], some 1⟩, ⟨"X0", [1, 2], [true, true], none⟩,
         ⟨"X1", [1], [false], none⟩] (some 0)).2.2 = [] ∧
    cur_domain (prop_FC [⟨"c0", [0, 1], [[1, 1]]⟩, ⟨"c1", [0, 2], [[1, 1]]⟩]
        [⟨"A", [1], [true], some 1⟩, ⟨"X0", [1, 2], [true, true], none⟩,
         ⟨"X1", [1], [false], none⟩] (some 0)).2.1 1 = [1] ∧
    cur_domain [⟨"A", [1], [true], some 1⟩, ⟨"X0", [1, 2], [true, true], none⟩,
         ⟨"X1", [1], [false], none⟩] 1 = [1, 2] := by
  decide

/-- C4 counterexample: in the claimed scenario (two variables with
domains 1..3, one binary not-equal constraint, variable 0 assigned 2,
variable 1 externally reduced to value 2), `prop_FC` does NOT leave the
last value un-pruned: the pair `(1, 2)` IS reported in the pruned list
and value 2 IS removed from variable 1's current domain. -/
theorem prop_FC_last_value_cex :
    (prop_FC [⟨"neq", [0, 1], [[1, 2], [1, 3], [2, 1], [2, 3], [3, 1], [3, 2]]⟩]
        [⟨"A", [1, 2, 3], [true, true, true], some 2⟩,
         ⟨"B", [1, 2, 3], [false, true, false], none⟩] (some 0)).1 = false ∧
    ¬((1, (2 : Int)) ∉
      (prop_FC [⟨"neq", [0, 1], [[1, 2], [1, 3], [2, 1], [2, 3], [3, 1], [3, 2]]⟩]
        [⟨"A", [1, 2, 3], [true, true, true], some 2⟩,
         ⟨"B", [1, 2, 3], [false, true, false], none⟩] (some 0)).2.2) ∧
    ¬((2 : Int) ∈ cur_domain
      (prop_FC [⟨"neq", [0, 1], [[1, 2], [1, 3], [2, 1], [2, 3], [3, 1], [3, 2]]⟩]
        [⟨"A", [1, 2, 3], [true, true, true], some 2⟩,
         ⟨"B", [1, 2, 3], [false, true, false], none⟩] (some 0)).2.1 1) := by
  decide

/-- C4 amended: in that scenario `prop_FC` returns failure, the pruned
list is exactly `[(B, 2)]` — the last remaining value IS hypothetically
tested, pruned and reported — and the emptied domain is detected right
after the prune. -/
theorem prop_FC_last_value_pruned_reported :
    (prop_FC [⟨"neq", [0, 1], [[1, 2], [1, 3], [2, 1], [2, 3], [3, 1], [3, 2]]⟩]
        [⟨"A", [1, 2, 3], [true, true, true], some 2⟩,
         ⟨"B", [1, 2, 3], [false, true, false], none⟩] (some 0)).1 = false ∧
    (prop_FC [⟨"neq", [0, 1], [[1, 2], [1, 3], [2, 1], [2, 3], [3, 1], [3, 2]]⟩]
        [⟨"A", [1, 2, 3], [true, true, true], some 2⟩,
         ⟨"B", [1, 2, 3], [false, true, false], none⟩] (some 0)).2.2
      = [(1, 2)] ∧
    cur_domain (prop_FC [⟨"neq", [0, 1], [[1, 2], [1, 3], [2, 1], [2, 3], [3, 1], [3, 2]]⟩]
        [⟨"A", [1, 2, 3], [true, true, true], some 2⟩,
         ⟨"B", [1, 2, 3], [false, true, false], none⟩] (some 0)).2.1 1 = [] := by
  decide

/-! ## Futoshiki model constructors: the board-size assertion -/

/-- C10: both model constructors compute the board size as
`(len(futo_grid[0]) + 1) // 2` and assert it equals the number of grid
rows; on any grid where the two quantities differ they fail with an
assertion error instead of returning a CSP. -/
theorem futoshiki_board_size_assert (grid : List (List Cell))
    (h : ((grid.headD []).length + 1) / 2 ≠ grid.length) :
    futoshiki_csp_model_1 grid = Except.error "AssertionError" ∧
    futoshiki_csp_model_2 grid = Except.error "AssertionError" := by
  match grid with
  | [] => simp at h
  | row0 :: rest =>
    have h2 : ¬((row0.length + 1) / 2 = (row0 :: rest).length) := by
      simpa using h
    constructor
    · simp only [futoshiki_csp_model_1]
      rw [if_neg h2]
    · simp only [futoshiki_csp_model_2]
      rw [if_neg h2]

/-- Witness for C10: a one-row grid whose row length implies board size 2
makes both constructors fail the assertion. -/
theorem futoshiki_board_size_assert_witness :
    ((([[Cell.num 0, Cell.lt, Cell.num 0]] : List (List Cell)).headD []).length + 1) / 2
        ≠ ([[Cell.num 0, Cell.lt, Cell.num 0]] : List (List Cell)).length ∧
    futoshiki_csp_model_1 [[Cell.num 0, Cell.lt, Cell.num 0]]
        = Except.error "AssertionError" ∧
    futoshiki_csp_model_2 [[Cell.num 0, Cell.lt, Cell.num 0]]
        = Except.error "AssertionError" :=
  ⟨by decide, futoshiki_board_size_assert [[Cell.num 0, Cell.lt, Cell.num 0]] (by decide)⟩

/-! ## The GAC enqueue step -/

lemma enqueueFold_extends (net : List Cons) (c : Nat) :
    ∀ (l q : List Nat), ∃ t, enqueueFold net c q l = q ++ t
  | [], q => ⟨[], (List.append_nil q).symm⟩
  | cv :: rest, q => by
    simp only [enqueueFold]
    split
    · obtain ⟨t, ht⟩ := enqueueFold_extends net c rest (enqueue q cv)
      exact ⟨cv :: t, by rw [ht]; simp [enqueue]⟩
    · exact enqueueFold_extends net c rest q

lemma mem_enqueueFold_of_mem_left {net : List Cons} {c : Nat}
    (l q : List Nat) {j : Nat} (h : j ∈ q) : j ∈ enqueueFold net c q l := by
  obtain ⟨t, ht⟩ := enqueueFold_extends net c l q
  rw [ht]
  exact List.mem_append_left t h

lemma mem_enqueueFold_of_mem_list {net : List Cons} {c : Nat} :
    ∀ (l q : List Nat) {cv : Nat}, cv ∈ l → cv ∈ enqueueFold net c q l
  | cv' :: rest, q, cv, h => by
    simp only [enqueueFold]
    rcases List.mem_cons.mp h with rfl | h
    · split
      · exact mem_enqueueFold_of_mem_left rest _ (by simp [enqueue])
      · next hcond =>
        push_neg at hcond
        exact mem_enqueueFold_of_mem_left rest _ hcond.1
    · exact mem_enqueueFold_of_mem_list rest _ h

lemma mem_enqueueFold_src {net : List Cons} {c : Nat} :
    ∀ (l q : List Nat) {j : Nat}, j ∈ enqueueFold net c q l → j ∈ q ∨ j ∈ l
  | [], q, j, h => Or.inl h
  | cv :: rest, q, j, h => by
    simp only [enqueueFold] at h
    have hstep : ∀ q' : List Nat, j ∈ enqueueFold net c q' rest →
        j ∈ q' ∨ j ∈ rest := fun q' => mem_enqueueFold_src rest q'
    rcases (by
      split at h
      · rcases hstep _ h with hq | hr
        · rcases (by simpa [enqueue] using hq : j ∈ q ∨ j = cv) with hq | hcv
          · exact Or.inl hq
          · exact Or.inr (Or.inl hcv)
        · exact Or.inr (Or.inr hr)
      · rcases hstep _ h with hq | hr
        · exact Or.inl hq
        · exact Or.inr (Or.inr hr) :
        j ∈ q ∨ (j = cv ∨ j ∈ rest)) with hq | hcv
    · exact Or.inl hq
    · exact Or.inr (List.mem_cons.mpr hcv)

lemma mem_enqueueStep_of_mem_q {net : List Cons} {c : Nat} {q : List Nat}
    {u j : Nat} (h : j ∈ q) : j ∈ enqueueStep net c q u :=
  mem_enqueueFold_of_mem_left _ q h

lemma mem_enqueueStep_of_cons_with_var {net : List Cons} {c : Nat}
    {q : List Nat} {u cv : Nat} (h : cv ∈ get_cons_with_var net u) :
    cv ∈ enqueueStep net c q u :=
  mem_enqueueFold_of_mem_list _ q h

lemma mem_enqueueStep_src {net : List Cons} {c : Nat} {q : List Nat}
    {u j : Nat} (h : j ∈ enqueueStep net c q u) :
    j ∈ q ∨ j ∈ get_cons_with_var net u :=
  mem_enqueueFold_src _ q h

lemma mem_cons_with_var_iff {net : List Cons} {u j : Nat} :
    j ∈ get_cons_with_var net u ↔
      j < net.length ∧ u ∈ (net.getD j defaultCons).scope := by
  simp [get_cons_with_var, List.mem_filter, List.mem_range]

/-! ## Positional mask lemmas -/

lemma getD_true_lt_length {m : List Bool} {i : Nat} (h : m.getD i false = true) :
    i < m.length := by
  by_contra hge
  rw [List.getD_eq_default _ _ (Nat.le_of_not_lt hge)] at h
  cases h

lemma maskOff_getD_antitone : ∀ (d : List Int) (m : List Bool) (x : Int) (i : Nat),
    (maskOff d m x).getD i false = true → m.getD i false = true
  | [], _, _, _ => fun h => h
  | _ :: _, [], _, _ => fun h => h
  | e :: ds, b :: ms, x, i => by
    by_cases hex : e = x
    · rw [maskOff_cons_eq ds b ms hex]
      match i with
      | 0 => intro h; cases h
      | i + 1 =>
        rw [List.getD_cons_succ, List.getD_cons_succ]
        exact fun h => h
    · rw [maskOff_cons_ne ds b ms hex]
      match i with
      | 0 => exact fun h => h
      | i + 1 =>
        rw [List.getD_cons_succ, List.getD_cons_succ]
        exact maskOff_getD_antitone ds ms x i

lemma maskOff_getD_self : ∀ (d : List Int) (m : List Bool) (x : Int) (i : Nat),
    d.Nodup → i < d.length → d.getD i 0 = x →
    (maskOff d m x).getD i false = false
  | [], _, _, i => by
    intro _ hi _
    cases hi
  | e :: ds, [], x, i => by
    intro _ _ _
    show ([] : List Bool).getD i false = false
    simp
  | e :: ds, b :: ms, x, i => by
    intro hd hi hx
    by_cases hex : e = x
    · rw [maskOff_cons_eq ds b ms hex]
      match i with
      | 0 => rfl
      | i + 1 =>
        rw [List.getD_cons_succ]
        exfalso
        rw [List.getD_cons_succ] at hx
        simp only [List.length_cons, Nat.add_lt_add_iff_right] at hi
        have hxmem : x ∈ ds := by
          rw [← hx, List.getD_eq_getElem ds 0 hi]
          exact List.getElem_mem hi
        exact (List.nodup_cons.mp hd).1 (hex ▸ hxmem)
    · rw [maskOff_cons_ne ds b ms hex]
      match i with
      | 0 => exact absurd (by simpa using hx) hex
      | i + 1 =>
        rw [List.getD_cons_succ]
        rw [List.getD_cons_succ] at hx
        simp only [List.length_cons, Nat.add_lt_add_iff_right] at hi
        exact maskOff_getD_self ds ms x i (List.nodup_cons.mp hd).2 hi hx

lemma maskOff_getD_of_ne : ∀ (d : List Int) (m : List Bool) (x : Int) (i : Nat),
    (d.length ≤ i ∨ d.getD i 0 ≠ x) →
    (maskOff d m x).getD i false = m.getD i false
  | [], _, _, _ => fun _ => rfl
  | _ :: _, [], _, _ => fun _ => rfl
  | e :: ds, b :: ms, x, i => fun h => by
    by_cases hex : e = x
    · rw [maskOff_cons_eq ds b ms hex]
      match i with
      | 0 =>
        rcases h with h | h
        · exact absurd h (by simp)
        · exact absurd (show (e :: ds).getD 0 0 = x from hex) h
      | i + 1 =>
        rw [List.getD_cons_succ, List.getD_cons_succ]
    · rw [maskOff_cons_ne ds b ms hex]
      match i with
      | 0 => rfl
      | i + 1 =>
        rw [List.getD_cons_succ, List.getD_cons_succ]
        apply maskOff_getD_of_ne
        rcases h with h | h
        · exact Or.inl (by simpa using h)
        · exact Or.inr (by rwa [List.getD_cons_succ] at h)

lemma lt_length_of_mask {S : State} {u idx : Nat}
    (h : (getVarS S u).curdom.getD idx false = true) : u < S.length := by
  by_contra hge
  have hdef : getVarS S u = defaultVar := by
    rw [getVarS, List.getD_eq_default _ _ (Nat.le_of_not_lt hge)]
  rw [hdef] at h
  cases h

lemma mem_cur_domain_of_mask {S : State} {u idx : Nat} (hm : masksOK S)
    (h : (getVarS S u).curdom.getD idx false = true) :
    (getVarS S u).dom.getD idx 0 ∈ cur_domain S u := by
  refine (mem_maskFilter_iff _ _ _).mpr ⟨idx, ?_, h, rfl⟩
  rw [← getVarS_mask_len hm u]
  exact getD_true_lt_length h

lemma prune_mask_antitone (S : State) (u : Nat) (val : Int) (w i : Nat)
    (h : (getVarS (prune_value S u val) w).curdom.getD i false = true) :
    (getVarS S w).curdom.getD i false = true := by
  rcases eq_or_ne w u with rfl | hw
  · rcases Nat.lt_or_ge w S.length with hlt | hge
    · rw [getVarS_prune_self val hlt] at h
      exact maskOff_getD_antitone _ _ _ _ h
    · rwa [prune_of_ge val hge] at h
  · rwa [getVarS_prune_ne val hw] at h

/-! ## The GAC variable scan: branch equations -/

lemma scanVals_cons_skip {net : List Cons} {c u idx : Nat} {S : State}
    {pr : List (Nat × Int)} {q : List Nat} {cnt : Nat} (rest : List Nat)
    (hmask : (getVarS S u).curdom.getD idx false = true)
    (hpr : (u, (getVarS S u).dom.getD idx 0) ∈ pr) :
    scanVals net c u (idx :: rest) S pr q cnt
      = scanVals net c u rest S pr q cnt := by
  simp only [scanVals, hmask, if_pos, if_pos hpr]

lemma scanVals_cons_sup {net : List Cons} {c u idx : Nat} {S : State}
    {pr : List (Nat × Int)} {q : List Nat} {cnt : Nat} (rest : List Nat)
    (hmask : (getVarS S u).curdom.getD idx false = true)
    (hpr : (u, (getVarS S u).dom.getD idx 0) ∉ pr)
    (hsup : has_support S (net.getD c defaultCons) u
      ((getVarS S u).dom.getD idx 0) = true) :
    scanVals net c u (idx :: rest) S pr q cnt
      = scanVals net c u rest S pr q cnt := by
  simp only [scanVals, hmask, if_pos, if_neg hpr, hsup, Bool.not_true,
    Bool.false_eq_true]
  simp

lemma scanVals_cons_prune {net : List Cons} {c u idx : Nat} {S : State}
    {pr : List (Nat × Int)} {q : List Nat} {cnt : Nat} (rest : List Nat)
    (hmask : (getVarS S u).curdom.getD idx false = true)
    (hpr : (u, (getVarS S u).dom.getD idx 0) ∉ pr)
    (hsup : ¬ has_support S (net.getD c defaultCons) u
      ((getVarS S u).dom.getD idx 0) = true) :
    scanVals net c u (idx :: rest) S pr q cnt
      = scanVals net c u rest
          (prune_value S u ((getVarS S u).dom.getD idx 0))
          (pr ++ [(u, (getVarS S u).dom.getD idx 0)])
          (enqueueStep net c q u) (cnt + 1) := by
  have hsup2 : (!has_support S (net.getD c defaultCons) u
      ((getVarS S u).dom.getD idx 0)) = true := by
    simp [Bool.not_eq_true] at hsup ⊢
    exact hsup
  simp only [scanVals, hmask, if_pos, if_neg hpr, hsup2]

lemma scanVals_cons_nomask {net : List Cons} {c u idx : Nat} {S : State}
    {pr : List (Nat × Int)} {q : List Nat} {cnt : Nat} (rest : List Nat)
    (hmask : ¬ (getVarS S u).curdom.getD idx false = true) :
    scanVals net c u (idx :: rest) S pr q cnt
      = scanVals net c u rest S pr q (cnt + 1) := by
  simp only [scanVals]
  rw [if_neg hmask]

/-! ## The GAC variable scan: basic structural properties -/

lemma scanVals_basic (net : List Cons) (c u : Nat) :
    ∀ (idxs : List Nat) (S : State) (pr : List (Nat × Int)) (q : List Nat)
      (cnt : Nat),
      (∃ t, (scanVals net c u idxs S pr q cnt).2.1 = pr ++ t) ∧
      (∃ t, (scanVals net c u idxs S pr q cnt).2.2.1 = q ++ t) ∧
      (scanVals net c u idxs S pr q cnt).1.length = S.length ∧
      (∀ w, w ≠ u → getVarS (scanVals net c u idxs S pr q cnt).1 w = getVarS S w) ∧
      (∀ w, (getVarS (scanVals net c u idxs S pr q cnt).1 w).dom
          = (getVarS S w).dom) ∧
      (∀ w, (getVarS (scanVals net c u idxs S pr q cnt).1 w).assignedValue
          = (getVarS S w).assignedValue) ∧
      (∀ w, (getVarS (scanVals net c u idxs S pr q cnt).1 w).curdom.length
          = (getVarS S w).curdom.length) ∧
      (∀ w i, (getVarS (scanVals net c u idxs S pr q cnt).1 w).curdom.getD i false
            = true →
          (getVarS S w).curdom.getD i false = true) ∧
      (((scanVals net c u idxs S pr q cnt).1 = S ∧
        (scanVals net c u idxs S pr q cnt).2.1 = pr ∧
        (scanVals net c u idxs S pr q cnt).2.2.1 = q) ∨
        pr.length < (scanVals net c u idxs S pr q cnt).2.1.length)
  | [], S, pr, q, cnt =>
    ⟨⟨[], by simp [scanVals]⟩, ⟨[], by simp [scanVals]⟩, rfl,
     fun w _ => rfl, fun w => rfl, fun w => rfl, fun w => rfl,
     fun w i h => h, Or.inl ⟨rfl, rfl, rfl⟩⟩
  | idx :: rest, S, pr, q, cnt => by
    by_cases hmask : (getVarS S u).curdom.getD idx false = true
    · by_cases hpr : (u, (getVarS S u).dom.getD idx 0) ∈ pr
      · have heq : scanVals net c u (idx :: rest) S pr q cnt
            = scanVals net c u rest S pr q cnt := by
          simp only [scanVals, hmask, if_pos, if_pos hpr]
        rw [heq]
        exact scanVals_basic net c u rest S pr q cnt
      · by_cases hsup : has_support S (net.getD c defaultCons) u
            ((getVarS S u).dom.getD idx 0) = true
        · have heq : scanVals net c u (idx :: rest) S pr q cnt
              = scanVals net c u rest S pr q cnt := by
            simp only [scanVals, hmask, if_pos, if_neg hpr, hsup,
              Bool.not_true, Bool.false_eq_true]
            simp
          rw [heq]
          exact scanVals_basic net c u rest S pr q cnt
        · have heq : scanVals net c u (idx :: rest) S pr q cnt
              = scanVals net c u rest
                  (prune_value S u ((getVarS S u).dom.getD idx 0))
                  (pr ++ [(u, (getVarS S u).dom.getD idx 0)])
                  (enqueueStep net c q u) (cnt + 1) := by
            have hsup2 : (!has_support S (net.getD c defaultCons) u
                ((getVarS S u).dom.getD idx 0)) = true := by
              simp [Bool.not_eq_true] at hsup ⊢
              exact hsup
            simp only [scanVals, hmask, if_pos, if_neg hpr, hsup2]
          rw [heq]
          obtain ⟨h1, h2, h3, h4, h5, h6, h7, h8, -⟩ :=
            scanVals_basic net c u rest
              (prune_value S u ((getVarS S u).dom.getD idx 0))
              (pr ++ [(u, (getVarS S u).dom.getD idx 0)])
              (enqueueStep net c q u) (cnt + 1)
          refine ⟨?_, ?_, ?_, ?_, ?_, ?_, ?_, ?_, ?_⟩
          · obtain ⟨t, ht⟩ := h1
            exact ⟨(u, (getVarS S u).dom.getD idx 0) :: t, by
              rw [ht]
              simp⟩
          · obtain ⟨t0, ht0⟩ := enqueueFold_extends net c (get_cons_with_var net u) q
            obtain ⟨t, ht⟩ := h2
            exact ⟨t0 ++ t, by
              rw [ht]
              show enqueueFold net c q (get_cons_with_var net u) ++ t = _
              rw [ht0, List.append_assoc]⟩
          · rw [h3, prune_length]
          · intro w hw
            rw [h4 w hw, getVarS_prune_ne _ hw]
          · intro w
            rw [h5 w, prune_dom]
          · intro w
            rw [h6 w, prune_assigned]
          · intro w
            rw [h7 w, prune_mask_len]
          · intro w i h
            exact prune_mask_antitone S u _ w i (h8 w i h)
          · right
            obtain ⟨t, ht⟩ := h1
            rw [ht]
            simp
    · have heq : scanVals net c u (idx :: rest) S pr q cnt
          = scanVals net c u rest S pr q (cnt + 1) := by
        simp only [scanVals]
        rw [if_neg hmask]
      rw [heq]
      exact scanVals_basic net c u rest S pr q (cnt + 1)

/-! ## The GAC variable scan: well-formedness preservation -/

lemma scanVals_wf (net : List Cons) (c u : Nat) :
    ∀ (idxs : List Nat) (S : State) (pr : List (Nat × Int)) (q : List Nat)
      (cnt : Nat), masksOK S → domsNodup S → prunedAbsent S pr →
      masksOK (scanVals net c u idxs S pr q cnt).1 ∧
      domsNodup (scanVals net c u idxs S pr q cnt).1 ∧
      prunedAbsent (scanVals net c u idxs S pr q cnt).1
        (scanVals net c u idxs S pr q cnt).2.1 ∧
      (pr.Nodup → (scanVals net c u idxs S pr q cnt).2.1.Nodup) ∧
      (prunedValid S pr → prunedValid (scanVals net c u idxs S pr q cnt).1
        (scanVals net c u idxs S pr q cnt).2.1) ∧
      (∀ p ∈ (scanVals net c u idxs S pr q cnt).2.1,
        p ∈ pr ∨ p.2 ∈ cur_domain S p.1) ∧
      (∀ w a, a ∈ cur_domain (scanVals net c u idxs S pr q cnt).1 w →
        a ∈ cur_domain S w)
  | [], S, pr, q, cnt => fun hm hn hab =>
    ⟨hm, hn, hab, fun h => h, fun h => h, fun p hp => Or.inl hp,
     fun w a h => h⟩
  | idx :: rest, S, pr, q, cnt => fun hm hn hab => by
    by_cases hmask : (getVarS S u).curdom.getD idx false = true
    · by_cases hpr : (u, (getVarS S u).dom.getD idx 0) ∈ pr
      · rw [scanVals_cons_skip rest hmask hpr]
        exact scanVals_wf net c u rest S pr q cnt hm hn hab
      · by_cases hsup : has_support S (net.getD c defaultCons) u
            ((getVarS S u).dom.getD idx 0) = true
        · rw [scanVals_cons_sup rest hmask hpr hsup]
          exact scanVals_wf net c u rest S pr q cnt hm hn hab
        · rw [scanVals_cons_prune rest hmask hpr hsup]
          have hm1 : masksOK (prune_value S u ((getVarS S u).dom.getD idx 0)) :=
            prune_masksOK hm u _
          have hn1 : domsNodup (prune_value S u ((getVarS S u).dom.getD idx 0)) :=
            prune_domsNodup hn u _
          have hab1 : prunedAbsent (prune_value S u ((getVarS S u).dom.getD idx 0))
              (pr ++ [(u, (getVarS S u).dom.getD idx 0)]) := by
            intro p hp
            rcases List.mem_append.mp hp with hp | hp
            · intro hin
              exact hab p hp (cur_domain_prune_subset hn u _ p.1 hin)
            · rcases List.mem_singleton.mp hp with rfl
              intro hin
              have := (mem_cur_domain_prune hn u _ u _).mp hin
              exact this.2 ⟨rfl, rfl⟩
          obtain ⟨ih1, ih2, ih3, ih4, ih5, ih6, ih7⟩ :=
            scanVals_wf net c u rest
              (prune_value S u ((getVarS S u).dom.getD idx 0))
              (pr ++ [(u, (getVarS S u).dom.getD idx 0)])
              (enqueueStep net c q u) (cnt + 1) hm1 hn1 hab1
          refine ⟨ih1, ih2, ih3, ?_, ?_, ?_, ?_⟩
          · intro hnd
            apply ih4
            rw [← List.concat_eq_append]
            exact List.Nodup.concat hpr hnd
          · intro hv
            apply ih5
            intro p hp
            rcases List.mem_append.mp hp with hp | hp
            · refine ⟨by rw [prune_length]; exact (hv p hp).1, ?_⟩
              rw [prune_dom]
              exact (hv p hp).2
            · rcases List.mem_singleton.mp hp with rfl
              refine ⟨by rw [prune_length]; exact lt_length_of_mask hmask, ?_⟩
              rw [prune_dom]
              have hlen : idx < (getVarS S u).dom.length := by
                rw [← getVarS_mask_len hm u]
                exact getD_true_lt_length hmask
              rw [List.getD_eq_getElem _ _ hlen]
              exact List.getElem_mem hlen
          · intro p hp
            rcases ih6 p hp with hp2 | hp2
            · rcases List.mem_append.mp hp2 with hp3 | hp3
              · exact Or.inl hp3
              · rcases List.mem_singleton.mp hp3 with rfl
                exact Or.inr (mem_cur_domain_of_mask hm hmask)
            · exact Or.inr (cur_domain_prune_subset hn u _ p.1 hp2)
          · intro w a h
            exact cur_domain_prune_subset hn u _ w (ih7 w a h)
    · rw [scanVals_cons_nomask rest hmask]
      exact scanVals_wf net c u rest S pr q (cnt + 1) hm hn hab

/-! ## The GAC variable scan: positions, counting, support -/

lemma nodup_getD_ne {d : List Int} (hn : d.Nodup) {i j : Nat}
    (hi : i < d.length) (hj : j < d.length) (hij : i ≠ j) :
    d.getD i 0 ≠ d.getD j 0 := by
  rw [List.getD_eq_getElem _ _ hi, List.getD_eq_getElem _ _ hj]
  intro h
  exact hij ((List.Nodup.getElem_inj_iff hn).mp h)

lemma scanVals_mask_frame (net : List Cons) (c u : Nat) :
    ∀ (idxs : List Nat) (S : State) (pr : List (Nat × Int)) (q : List Nat)
      (cnt : Nat), masksOK S → domsNodup S →
      ∀ i, i ∉ idxs →
        (getVarS (scanVals net c u idxs S pr q cnt).1 u).curdom.getD i false
          = (getVarS S u).curdom.getD i false
  | [], S, pr, q, cnt => fun _ _ i _ => rfl
  | idx :: rest, S, pr, q, cnt => fun hm hn i hi => by
    have hir : i ∉ rest := fun h => hi (List.mem_cons_of_mem _ h)
    have hii : i ≠ idx := fun h => hi (h ▸ List.mem_cons_self _ _)
    by_cases hmask : (getVarS S u).curdom.getD idx false = true
    · by_cases hpr : (u, (getVarS S u).dom.getD idx 0) ∈ pr
      · rw [scanVals_cons_skip rest hmask hpr]
        exact scanVals_mask_frame net c u rest S pr q cnt hm hn i hir
      · by_cases hsup : has_support S (net.getD c defaultCons) u
            ((getVarS S u).dom.getD idx 0) = true
        · rw [scanVals_cons_sup rest hmask hpr hsup]
          exact scanVals_mask_frame net c u rest S pr q cnt hm hn i hir
        · rw [scanVals_cons_prune rest hmask hpr hsup]
          rw [scanVals_mask_frame net c u rest _ _ _ _
            (prune_masksOK hm u _) (prune_domsNodup hn u _) i hir]
          have hidx : idx < (getVarS S u).dom.length := by
            rw [← getVarS_mask_len hm u]
            exact getD_true_lt_length hmask
          rcases Nat.lt_or_ge u S.length with hu | hu
          · rw [getVarS_prune_self _ hu]
            apply maskOff_getD_of_ne
            rcases Nat.lt_or_ge i (getVarS S u).dom.length with hilt | hige
            · exact Or.inr (nodup_getD_ne (getVarS_dom_nodup hn u) hilt hidx hii)
            · exact Or.inl hige
          · rw [prune_of_ge _ hu]
    · rw [scanVals_cons_nomask rest hmask]
      exact scanVals_mask_frame net c u rest S pr q (cnt + 1) hm hn i hir

lemma scanVals_cnt (net : List Cons) (c u : Nat) :
    ∀ (idxs : List Nat) (S : State) (pr : List (Nat × Int)) (q : List Nat)
      (cnt : Nat), masksOK S → domsNodup S → prunedAbsent S pr →
      idxs.Nodup →
      (scanVals net c u idxs S pr q cnt).2.2.2 = cnt +
        idxs.countP (fun idx =>
          !((getVarS (scanVals net c u idxs S pr q cnt).1 u).curdom.getD idx false))
  | [], S, pr, q, cnt => fun _ _ _ _ => by simp [scanVals]
  | idx :: rest, S, pr, q, cnt => fun hm hn hab hnd => by
    have hndr : rest.Nodup := hnd.of_cons
    have hout : idx ∉ rest := (List.nodup_cons.mp hnd).1
    by_cases hmask : (getVarS S u).curdom.getD idx false = true
    · by_cases hpr : (u, (getVarS S u).dom.getD idx 0) ∈ pr
      · exact absurd (mem_cur_domain_of_mask hm hmask) (hab _ hpr)
      · by_cases hsup : has_support S (net.getD c defaultCons) u
            ((getVarS S u).dom.getD idx 0) = true
        · rw [scanVals_cons_sup rest hmask hpr hsup]
          have hfinal : (getVarS (scanVals net c u rest S pr q cnt).1 u).curdom.getD
              idx false = true := by
            rw [scanVals_mask_frame net c u rest S pr q cnt hm hn idx hout]
            exact hmask
          rw [List.countP_cons_of_neg _ _ (by rw [hfinal]; simp)]
          exact scanVals_cnt net c u rest S pr q cnt hm hn hab hndr
        · rw [scanVals_cons_prune rest hmask hpr hsup]
          have hidx : idx < (getVarS S u).dom.length := by
            rw [← getVarS_mask_len hm u]
            exact getD_true_lt_length hmask
          have hm1 : masksOK (prune_value S u ((getVarS S u).dom.getD idx 0)) :=
            prune_masksOK hm u _
          have hn1 : domsNodup (prune_value S u ((getVarS S u).dom.getD idx 0)) :=
            prune_domsNodup hn u _
          have hab1 : prunedAbsent (prune_value S u ((getVarS S u).dom.getD idx 0))
              (pr ++ [(u, (getVarS S u).dom.getD idx 0)]) := by
            intro p hp
            rcases List.mem_append.mp hp with hp | hp
            · intro hin
              exact hab p hp (cur_domain_prune_subset hn u _ p.1 hin)
            · rcases List.mem_singleton.mp hp with rfl
              intro hin
              exact ((mem_cur_domain_prune hn u _ u _).mp hin).2 ⟨rfl, rfl⟩
          have hmid : (getVarS (prune_value S u ((getVarS S u).dom.getD idx 0)) u).curdom.getD
              idx false = false := by
            rcases Nat.lt_or_ge u S.length with hu | hu
            · rw [getVarS_prune_self _ hu]
              exact maskOff_getD_self _ _ _ _ (getVarS_dom_nodup hn u) hidx rfl
            · exact absurd (lt_length_of_mask hmask) (Nat.not_lt.mpr hu)
          have hfinal : (getVarS (scanVals net c u rest
              (prune_value S u ((getVarS S u).dom.getD idx 0))
              (pr ++ [(u, (getVarS S u).dom.getD idx 0)])
              (enqueueStep net c q u) (cnt + 1)).1 u).curdom.getD idx false
              = false := by
            rw [scanVals_mask_frame net c u rest _ _ _ _ hm1 hn1 idx hout]
            exact hmid
          rw [List.countP_cons_of_pos _ _ (by rw [hfinal]; simp)]
          rw [scanVals_cnt net c u rest _ _ _ _ hm1 hn1 hab1 hndr]
          omega
    · rw [scanVals_cons_nomask rest hmask]
      have h8 := (scanVals_basic net c u rest S pr q (cnt + 1)).2.2.2.2.2.2.2.1
      have hfinal : (getVarS (scanVals net c u rest S pr q (cnt + 1)).1 u).curdom.getD
          idx false = false := by
        cases hfi : (getVarS (scanVals net c u rest S pr q (cnt + 1)).1 u).curdom.getD
            idx false with
        | false => rfl
        | true => exact absurd (h8 u idx hfi) hmask
      rw [List.countP_cons_of_pos _ _ (by rw [hfinal]; simp)]
      rw [scanVals_cnt net c u rest S pr q (cnt + 1) hm hn hab hnd.of_cons]
      omega

lemma scanVals_noprune (net : List Cons) (c u : Nat) :
    ∀ (idxs : List Nat) (S : State) (pr : List (Nat × Int)) (q : List Nat)
      (cnt : Nat),
      (scanVals net c u idxs S pr q cnt).2.1 = pr →
      (scanVals net c u idxs S pr q cnt).1 = S ∧
      (scanVals net c u idxs S pr q cnt).2.2.1 = q ∧
      ∀ idx ∈ idxs, (getVarS S u).curdom.getD idx false = true →
        (u, (getVarS S u).dom.getD idx 0) ∉ pr →
        has_support S (net.getD c defaultCons) u
          ((getVarS S u).dom.getD idx 0) = true
  | [], S, pr, q, cnt => fun _ => ⟨rfl, rfl, by simp⟩
  | idx :: rest, S, pr, q, cnt => fun hpreq => by
    by_cases hmask : (getVarS S u).curdom.getD idx false = true
    · by_cases hpr : (u, (getVarS S u).dom.getD idx 0) ∈ pr
      · rw [scanVals_cons_skip rest hmask hpr] at hpreq ⊢
        obtain ⟨h1, h2, h3⟩ := scanVals_noprune net c u rest S pr q cnt hpreq
        refine ⟨h1, h2, fun i hi hmi hni => ?_⟩
        rcases List.mem_cons.mp hi with rfl | hi
        · exact absurd hpr hni
        · exact h3 i hi hmi hni
      · by_cases hsup : has_support S (net.getD c defaultCons) u
            ((getVarS S u).dom.getD idx 0) = true
        · rw [scanVals_cons_sup rest hmask hpr hsup] at hpreq ⊢
          obtain ⟨h1, h2, h3⟩ := scanVals_noprune net c u rest S pr q cnt hpreq
          refine ⟨h1, h2, fun i hi hmi hni => ?_⟩
          rcases List.mem_cons.mp hi with rfl | hi
          · exact hsup
          · exact h3 i hi hmi hni
        · exfalso
          rw [scanVals_cons_prune rest hmask hpr hsup] at hpreq
          obtain ⟨t, ht⟩ := (scanVals_basic net c u rest _ _ _ _).1
          rw [ht] at hpreq
          have hlen := congrArg List.length hpreq
          simp [Nat.add_assoc] at hlen
    · rw [scanVals_cons_nomask rest hmask] at hpreq ⊢
      obtain ⟨h1, h2, h3⟩ := scanVals_noprune net c u rest S pr q (cnt + 1) hpreq
      refine ⟨h1, h2, fun i hi hmi hni => ?_⟩
      rcases List.mem_cons.mp hi with rfl | hi
      · exact absurd hmi hmask
      · exact h3 i hi hmi hni

lemma scanVals_flip (net : List Cons) (c u : Nat) :
    ∀ (idxs : List Nat) (S : State) (pr : List (Nat × Int)) (q : List Nat)
      (cnt : Nat),
      (scanVals net c u idxs S pr q cnt).2.1 ≠ pr →
      ∀ cv ∈ get_cons_with_var net u,
        cv ∈ (scanVals net c u idxs S pr q cnt).2.2.1
  | [], S, pr, q, cnt => fun h => absurd rfl h
  | idx :: rest, S, pr, q, cnt => fun hne cv hcv => by
    by_cases hmask : (getVarS S u).curdom.getD idx false = true
    · by_cases hpr : (u, (getVarS S u).dom.getD idx 0) ∈ pr
      · rw [scanVals_cons_skip rest hmask hpr] at hne ⊢
        exact scanVals_flip net c u rest S pr q cnt hne cv hcv
      · by_cases hsup : has_support S (net.getD c defaultCons) u
            ((getVarS S u).dom.getD idx 0) = true
        · rw [scanVals_cons_sup rest hmask hpr hsup] at hne ⊢
          exact scanVals_flip net c u rest S pr q cnt hne cv hcv
        · rw [scanVals_cons_prune rest hmask hpr hsup]
          obtain ⟨t, ht⟩ := (scanVals_basic net c u rest
            (prune_value S u ((getVarS S u).dom.getD idx 0))
            (pr ++ [(u, (getVarS S u).dom.getD idx 0)])
            (enqueueStep net c q u) (cnt + 1)).2.1
          rw [ht]
          exact List.mem_append_left _ (mem_enqueueStep_of_cons_with_var hcv)
    · rw [scanVals_cons_nomask rest hmask] at hne ⊢
      exact scanVals_flip net c u rest S pr q (cnt + 1) hne cv hcv

lemma scanVals_completeness (net : List Cons) (c u : Nat) :
    ∀ (idxs : List Nat) (S : State) (pr : List (Nat × Int)) (q : List Nat)
      (cnt : Nat), masksOK S → domsNodup S →
      ∀ w a, a ∈ cur_domain S w →
        a ∉ cur_domain (scanVals net c u idxs S pr q cnt).1 w →
        (w, a) ∈ (scanVals net c u idxs S pr q cnt).2.1 ∧
        ∀ cv ∈ get_cons_with_var net w,
          cv ∈ (scanVals net c u idxs S pr q cnt).2.2.1
  | [], S, pr, q, cnt => fun _ _ w a ha hna => absurd ha hna
  | idx :: rest, S, pr, q, cnt => fun hm hn w a ha hna => by
    by_cases hmask : (getVarS S u).curdom.getD idx false = true
    · by_cases hpr : (u, (getVarS S u).dom.getD idx 0) ∈ pr
      · rw [scanVals_cons_skip rest hmask hpr] at hna ⊢
        exact scanVals_completeness net c u rest S pr q cnt hm hn w a ha hna
      · by_cases hsup : has_support S (net.getD c defaultCons) u
            ((getVarS S u).dom.getD idx 0) = true
        · rw [scanVals_cons_sup rest hmask hpr hsup] at hna ⊢
          exact scanVals_completeness net c u rest S pr q cnt hm hn w a ha hna
        · rw [scanVals_cons_prune rest hmask hpr hsup] at hna ⊢
          by_cases ha1 : a ∈ cur_domain
              (prune_value S u ((getVarS S u).dom.getD idx 0)) w
          · exact scanVals_completeness net c u rest _ _ _ _
              (prune_masksOK hm u _) (prune_domsNodup hn u _) w a ha1 hna
          · have hwa : w = u ∧ a = (getVarS S u).dom.getD idx 0 := by
              by_contra hc
              exact ha1 ((mem_cur_domain_prune hn u _ w a).mpr ⟨ha, hc⟩)
            obtain ⟨t, ht⟩ := (scanVals_basic net c u rest
              (prune_value S u ((getVarS S u).dom.getD idx 0))
              (pr ++ [(u, (getVarS S u).dom.getD idx 0)])
              (enqueueStep net c q u) (cnt + 1)).1
            obtain ⟨t2, ht2⟩ := (scanVals_basic net c u rest
              (prune_value S u ((getVarS S u).dom.getD idx 0))
              (pr ++ [(u, (getVarS S u).dom.getD idx 0)])
              (enqueueStep net c q u) (cnt + 1)).2.1
            constructor
            · rw [ht]
              refine List.mem_append_left _ (List.mem_append_right _ ?_)
              rw [hwa.1, hwa.2]
              exact List.mem_singleton_self _
            · intro cv hcv
              rw [ht2]
              rw [hwa.1] at hcv
              exact List.mem_append_left _ (mem_enqueueStep_of_cons_with_var hcv)
    · rw [scanVals_cons_nomask rest hmask] at hna ⊢
      exact scanVals_completeness net c u rest S pr q (cnt + 1) hm hn w a ha hna

lemma scanVals_qsrc (net : List Cons) (c u : Nat) :
    ∀ (idxs : List Nat) (S : State) (pr : List (Nat × Int)) (q : List Nat)
      (cnt : Nat) (j : Nat),
      j ∈ (scanVals net c u idxs S pr q cnt).2.2.1 → j ∈ q ∨ j < net.length
  | [], S, pr, q, cnt, j => fun h => Or.inl h
  | idx :: rest, S, pr, q, cnt, j => fun hj => by
    by_cases hmask : (getVarS S u).curdom.getD idx false = true
    · by_cases hpr : (u, (getVarS S u).dom.getD idx 0) ∈ pr
      · rw [scanVals_cons_skip rest hmask hpr] at hj
        exact scanVals_qsrc net c u rest S pr q cnt j hj
      · by_cases hsup : has_support S (net.getD c defaultCons) u
            ((getVarS S u).dom.getD idx 0) = true
        · rw [scanVals_cons_sup rest hmask hpr hsup] at hj
          exact scanVals_qsrc net c u rest S pr q cnt j hj
        · rw [scanVals_cons_prune rest hmask hpr hsup] at hj
          rcases scanVals_qsrc net c u rest _ _ _ _ j hj with hq | hlen
          · rcases mem_enqueueStep_src hq with hq2 | hcv
            · exact Or.inl hq2
            · exact Or.inr (mem_cons_with_var_iff.mp hcv).1
          · exact Or.inr hlen
    · rw [scanVals_cons_nomask rest hmask] at hj
      exact scanVals_qsrc net c u rest S pr q (cnt + 1) j hj

lemma isAssigned_congr {S T : State} {u : Nat}
    (h : (getVarS T u).assignedValue = (getVarS S u).assignedValue) :
    isAssigned T u = isAssigned S u := by
  unfold isAssigned
  rw [h]

/-! ## The GAC scope scan -/

lemma scanScope_cons_assigned {net : List Cons} {c u : Nat} {S : State}
    {pr : List (Nat × Int)} {q : List Nat} (us : List Nat)
    (hu : isAssigned S u = true) :
    scanScope net c (u :: us) S pr q = scanScope net c us S pr q := by
  simp only [scanScope, if_pos hu]

lemma scanScope_basic (net : List Cons) (c : Nat) :
    ∀ (us : List Nat) (S : State) (pr : List (Nat × Int)) (q : List Nat),
      (∃ t, (scanScope net c us S pr q).2.2.1 = pr ++ t) ∧
      (∃ t, (scanScope net c us S pr q).2.2.2 = q ++ t) ∧
      (scanScope net c us S pr q).2.1.length = S.length ∧
      (∀ w, (getVarS (scanScope net c us S pr q).2.1 w).dom
          = (getVarS S w).dom) ∧
      (∀ w, (getVarS (scanScope net c us S pr q).2.1 w).assignedValue
          = (getVarS S w).assignedValue) ∧
      (∀ w, (getVarS (scanScope net c us S pr q).2.1 w).curdom.length
          = (getVarS S w).curdom.length) ∧
      (((scanScope net c us S pr q).2.1 = S ∧
        (scanScope net c us S pr q).2.2.1 = pr ∧
        (scanScope net c us S pr q).2.2.2 = q) ∨
        pr.length < (scanScope net c us S pr q).2.2.1.length)
  | [], S, pr, q =>
    ⟨⟨[], by simp [scanScope]⟩, ⟨[], by simp [scanScope]⟩, rfl,
     fun w => rfl, fun w => rfl, fun w => rfl, Or.inl ⟨rfl, rfl, rfl⟩⟩
  | u :: us, S, pr, q => by
    by_cases hu : isAssigned S u = true
    · rw [scanScope_cons_assigned us hu]
      exact scanScope_basic net c us S pr q
    · obtain ⟨sv1, sv2, sv3, -, sv5, sv6, sv7, -, sv9⟩ :=
        scanVals_basic net c u (List.range (getVarS S u).curdom.length) S pr q 0
      rcases hsv : scanVals net c u (List.range (getVarS S u).curdom.length)
          S pr q 0 with ⟨S1, pr1, q1, cnt⟩
      rw [hsv] at sv1 sv2 sv3 sv5 sv6 sv7 sv9
      simp only at sv1 sv2 sv3 sv5 sv6 sv7 sv9
      have hunf : scanScope net c (u :: us) S pr q =
          if cnt = domain_size S1 u then (false, S1, pr1, q1)
          else scanScope net c us S1 pr1 q1 := by
        simp only [scanScope, if_neg hu, hsv]
      rw [hunf]
      by_cases hcnt : cnt = domain_size S1 u
      · rw [if_pos hcnt]
        exact ⟨sv1, sv2, sv3, sv5, sv6, sv7, by
          rcases sv9 with ⟨h1, h2, h3⟩ | h
          · exact Or.inl ⟨h1, h2, h3⟩
          · exact Or.inr h⟩
      · rw [if_neg hcnt]
        obtain ⟨ih1, ih2, ih3, ih4, ih5, ih6, ih7⟩ := scanScope_basic net c us S1 pr1 q1
        refine ⟨?_, ?_, ?_, ?_, ?_, ?_, ?_⟩
        · obtain ⟨t1, ht1⟩ := sv1
          obtain ⟨t2, ht2⟩ := ih1
          exact ⟨t1 ++ t2, by rw [ht2, ht1, List.append_assoc]⟩
        · obtain ⟨t1, ht1⟩ := sv2
          obtain ⟨t2, ht2⟩ := ih2
          exact ⟨t1 ++ t2, by rw [ht2, ht1, List.append_assoc]⟩
        · rw [ih3, sv3]
        · intro w
          rw [ih4 w, sv5 w]
        · intro w
          rw [ih5 w, sv6 w]
        · intro w
          rw [ih6 w, sv7 w]
        · rcases ih7 with ⟨h1, h2, h3⟩ | h
          · rcases sv9 with ⟨g1, g2, g3⟩ | g
            · exact Or.inl ⟨by rw [h1, g1], by rw [h2, g2], by rw [h3, g3]⟩
            · right
              obtain ⟨t2, ht2⟩ := ih1
              rw [ht2]
              calc pr.length < pr1.length := g
                _ ≤ (pr1 ++ t2).length := by simp
          · right
            obtain ⟨t1, ht1⟩ := sv1
            calc pr.length ≤ pr1.length := by rw [ht1]; simp
              _ < _ := h

lemma scanScope_wf (net : List Cons) (c : Nat) :
    ∀ (us : List Nat) (S : State) (pr : List (Nat × Int)) (q : List Nat),
      masksOK S → domsNodup S → prunedAbsent S pr →
      masksOK (scanScope net c us S pr q).2.1 ∧
      domsNodup (scanScope net c us S pr q).2.1 ∧
      prunedAbsent (scanScope net c us S pr q).2.1
        (scanScope net c us S pr q).2.2.1 ∧
      (pr.Nodup → (scanScope net c us S pr q).2.2.1.Nodup) ∧
      (prunedValid S pr → prunedValid (scanScope net c us S pr q).2.1
        (scanScope net c us S pr q).2.2.1) ∧
      (∀ p ∈ (scanScope net c us S pr q).2.2.1,
        p ∈ pr ∨ p.2 ∈ cur_domain S p.1) ∧
      (∀ w a, a ∈ cur_domain (scanScope net c us S pr q).2.1 w →
        a ∈ cur_domain S w)
  | [], S, pr, q => fun hm hn hab =>
    ⟨hm, hn, hab, fun h => h, fun h => h, fun p hp => Or.inl hp, fun w a h => h⟩
  | u :: us, S, pr, q => fun hm hn hab => by
    by_cases hu : isAssigned S u = true
    · rw [scanScope_cons_assigned us hu]
      exact scanScope_wf net c us S pr q hm hn hab
    · obtain ⟨w1, w2, w3, w4, w5, w6, w7⟩ :=
        scanVals_wf net c u (List.range (getVarS S u).curdom.length) S pr q 0
          hm hn hab
      rcases hsv : scanVals net c u (List.range (getVarS S u).curdom.length)
          S pr q 0 with ⟨S1, pr1, q1, cnt⟩
      rw [hsv] at w1 w2 w3 w4 w5 w6 w7
      simp only at w1 w2 w3 w4 w5 w6 w7
      have hunf : scanScope net c (u :: us) S pr q =
          if cnt = domain_size S1 u then (false, S1, pr1, q1)
          else scanScope net c us S1 pr1 q1 := by
        simp only [scanScope, if_neg hu, hsv]
      rw [hunf]
      by_cases hcnt : cnt = domain_size S1 u
      · rw [if_pos hcnt]
        exact ⟨w1, w2, w3, w4, w5, w6, w7⟩
      · rw [if_neg hcnt]
        obtain ⟨ih1, ih2, ih3, ih4, ih5, ih6, ih7⟩ :=
          scanScope_wf net c us S1 pr1 q1 w1 w2 w3
        refine ⟨ih1, ih2, ih3, fun hnd => ih4 (w4 hnd),
          fun hv => ih5 (w5 hv), ?_, ?_⟩
        · intro p hp
          rcases ih6 p hp with hp2 | hp2
          · exact w6 p hp2
          · exact Or.inr (w7 p.1 p.2 hp2)
        · intro w a h
          exact w7 w a (ih7 w a h)

lemma scanScope_noprune (net : List Cons) (c : Nat) :
    ∀ (us : List Nat) (S : State) (pr : List (Nat × Int)) (q : List Nat),
      (scanScope net c us S pr q).2.2.1 = pr →
      (scanScope net c us S pr q).2.1 = S ∧
      (scanScope net c us S pr q).2.2.2 = q ∧
      ((scanScope net c us S pr q).1 = true →
        ∀ u ∈ us, isAssigned S u = false →
          ∀ a ∈ cur_domain S u, (u, a) ∉ pr →
            has_support S (net.getD c defaultCons) u a = true)
  | [], S, pr, q => fun _ => ⟨rfl, rfl, by simp⟩
  | u :: us, S, pr, q => fun hR => by
    by_cases hu : isAssigned S u = true
    · rw [scanScope_cons_assigned us hu] at hR ⊢
      obtain ⟨h1, h2, h3⟩ := scanScope_noprune net c us S pr q hR
      refine ⟨h1, h2, fun hok v hv hva => ?_⟩
      rcases List.mem_cons.mp hv with rfl | hv
      · rw [hu] at hva
        cases hva
      · exact h3 hok v hv hva
    · obtain ⟨sv1, -⟩ :=
        scanVals_basic net c u (List.range (getVarS S u).curdom.length) S pr q 0
      rcases hsv : scanVals net c u (List.range (getVarS S u).curdom.length)
          S pr q 0 with ⟨S1, pr1, q1, cnt⟩
      rw [hsv] at sv1
      simp only at sv1
      have hunf : scanScope net c (u :: us) S pr q =
          if cnt = domain_size S1 u then (false, S1, pr1, q1)
          else scanScope net c us S1 pr1 q1 := by
        simp only [scanScope, if_neg hu, hsv]
      rw [hunf] at hR ⊢
      by_cases hcnt : cnt = domain_size S1 u
      · rw [if_pos hcnt] at hR ⊢
        simp only at hR
        have hnp := scanVals_noprune net c u
          (List.range (getVarS S u).curdom.length) S pr q 0 (by rw [hsv]; exact hR)
        rw [hsv] at hnp
        simp only at hnp
        exact ⟨hnp.1, hnp.2.1, by simp⟩
      · rw [if_neg hcnt] at hR ⊢
        have hpr1 : pr1 = pr := by
          obtain ⟨t1, ht1⟩ := sv1
          obtain ⟨t2, ht2⟩ := (scanScope_basic net c us S1 pr1 q1).1
          rw [ht2, ht1] at hR
          have := congrArg List.length hR
          simp at this
          rw [ht1]
          rcases this with ⟨h1, -⟩
          simp [h1]
        have hnp := scanVals_noprune net c u
          (List.range (getVarS S u).curdom.length) S pr q 0 (by rw [hsv]; exact hpr1)
        rw [hsv] at hnp
        simp only at hnp
        obtain ⟨hS1, hq1, hsupvals⟩ := hnp
        rw [hS1, hq1, hpr1] at hR ⊢
        obtain ⟨h1, h2, h3⟩ := scanScope_noprune net c us S pr q hR
        refine ⟨h1, h2, fun hok v hv hva => ?_⟩
        rcases List.mem_cons.mp hv with rfl | hv
        · intro a ha hna
          obtain ⟨i, hid, hmi, hvi⟩ := (mem_maskFilter_iff _ _ a).mp ha
          have := hsupvals i (List.mem_range.mpr (getD_true_lt_length hmi)) hmi
            (by rw [hvi]; exact hna)
          rwa [hvi] at this
        · exact h3 hok v hv hva

lemma scanScope_fail (net : List Cons) (c : Nat) :
    ∀ (us : List Nat) (S : State) (pr : List (Nat × Int)) (q : List Nat),
      masksOK S → domsNodup S → prunedAbsent S pr →
      (scanScope net c us S pr q).1 = false →
      ∃ u ∈ us, isAssigned (scanScope net c us S pr q).2.1 u = false ∧
        cur_domain (scanScope net c us S pr q).2.1 u = []
  | [], S, pr, q => fun _ _ _ h => by cases h
  | u :: us, S, pr, q => fun hm hn hab hfail => by
    by_cases hu : isAssigned S u = true
    · rw [scanScope_cons_assigned us hu] at hfail ⊢
      obtain ⟨v, hv, hprops⟩ := scanScope_fail net c us S pr q hm hn hab hfail
      exact ⟨v, List.mem_cons_of_mem _ hv, hprops⟩
    · obtain ⟨-, -, sv3, -, sv5, sv6, sv7, -, -⟩ :=
        scanVals_basic net c u (List.range (getVarS S u).curdom.length) S pr q 0
      obtain ⟨w1, w2, w3, -⟩ :=
        scanVals_wf net c u (List.range (getVarS S u).curdom.length) S pr q 0
          hm hn hab
      have hcntval := scanVals_cnt net c u
        (List.range (getVarS S u).curdom.length) S pr q 0 hm hn hab
        (List.nodup_range _)
      rcases hsv : scanVals net c u (List.range (getVarS S u).curdom.length)
          S pr q 0 with ⟨S1, pr1, q1, cnt⟩
      rw [hsv] at sv3 sv5 sv6 sv7 w1 w2 w3 hcntval
      simp only at sv3 sv5 sv6 sv7 w1 w2 w3 hcntval
      have hunf : scanScope net c (u :: us) S pr q =
          if cnt = domain_size S1 u then (false, S1, pr1, q1)
          else scanScope net c us S1 pr1 q1 := by
        simp only [scanScope, if_neg hu, hsv]
      rw [hunf] at hfail ⊢
      by_cases hcnt : cnt = domain_size S1 u
      · rw [if_pos hcnt]
        refine ⟨u, List.mem_cons_self _ _, ?_, ?_⟩
        · rw [isAssigned_congr (sv6 u)]
          exact Bool.not_eq_true _ ▸ (by simpa using hu)
        · have hdlen : (getVarS S1 u).dom.length = (getVarS S u).curdom.length := by
            rw [sv5 u, ← getVarS_mask_len hm u]
          have hall : ∀ i ∈ List.range (getVarS S u).curdom.length,
              (!(getVarS S1 u).curdom.getD i false) = true := by
            apply List.countP_eq_length.mp
            have : cnt = List.countP
                (fun idx => !(getVarS S1 u).curdom.getD idx false)
                (List.range (getVarS S u).curdom.length) := by
              simpa using hcntval
            rw [← this, hcnt]
            simp [domain_size, hdlen]
          rw [List.eq_nil_iff_forall_not_mem]
          intro a ha
          obtain ⟨i, hid, hmi, -⟩ := (mem_maskFilter_iff _ _ a).mp ha
          have hir : i ∈ List.range (getVarS S u).curdom.length := by
            rw [List.mem_range, ← hdlen]
            exact hid
          have := hall i hir
          rw [hmi] at this
          cases this
      · rw [if_neg hcnt] at hfail ⊢
        obtain ⟨v, hv, hprops⟩ := scanScope_fail net c us S1 pr1 q1 w1 w2 w3 hfail
        exact ⟨v, List.mem_cons_of_mem _ hv, hprops⟩

lemma scanScope_cmem (net : List Cons) (c : Nat) :
    ∀ (us : List Nat) (S : State) (pr : List (Nat × Int)) (q : List Nat),
      (∀ u ∈ us, u ∈ (net.getD c defaultCons).scope) → c < net.length →
      (scanScope net c us S pr q).2.2.1 ≠ pr →
      c ∈ (scanScope net c us S pr q).2.2.2
  | [], S, pr, q => fun _ _ h => absurd rfl h
  | u :: us, S, pr, q => fun hsc hc hne => by
    by_cases hu : isAssigned S u = true
    · rw [scanScope_cons_assigned us hu] at hne ⊢
      exact scanScope_cmem net c us S pr q
        (fun v hv => hsc v (List.mem_cons_of_mem _ hv)) hc hne
    · obtain ⟨sv1, sv2, -⟩ :=
        scanVals_basic net c u (List.range (getVarS S u).curdom.length) S pr q 0
      have hflip := scanVals_flip net c u
        (List.range (getVarS S u).curdom.length) S pr q 0
      rcases hsv : scanVals net c u (List.range (getVarS S u).curdom.length)
          S pr q 0 with ⟨S1, pr1, q1, cnt⟩
      rw [hsv] at sv1 sv2 hflip
      simp only at sv1 sv2 hflip
      have hunf : scanScope net c (u :: us) S pr q =
          if cnt = domain_size S1 u then (false, S1, pr1, q1)
          else scanScope net c us S1 pr1 q1 := by
        simp only [scanScope, if_neg hu, hsv]
      rw [hunf] at hne ⊢
      by_cases hpr1 : pr1 = pr
      · have hnp := scanVals_noprune net c u
          (List.range (getVarS S u).curdom.length) S pr q 0 (by rw [hsv]; exact hpr1)
        rw [hsv] at hnp
        simp only at hnp
        obtain ⟨hS1, hq1, -⟩ := hnp
        by_cases hcnt : cnt = domain_size S1 u
        · rw [if_pos hcnt] at hne
          simp only at hne
          exact absurd hpr1 hne
        · rw [if_neg hcnt] at hne ⊢
          rw [hS1, hq1, hpr1] at hne ⊢
          exact scanScope_cmem net c us S pr q
            (fun v hv => hsc v (List.mem_cons_of_mem _ hv)) hc hne
      · have hcq1 : c ∈ q1 := hflip hpr1 c
          (mem_cons_with_var_iff.mpr ⟨hc, hsc u (List.mem_cons_self _ _)⟩)
        by_cases hcnt : cnt = domain_size S1 u
        · rw [if_pos hcnt]
          exact hcq1
        · rw [if_neg hcnt]
          obtain ⟨t, ht⟩ := (scanScope_basic net c us S1 pr1 q1).2.1
          rw [ht]
          exact List.mem_append_left _ hcq1

lemma scanScope_completeness (net : List Cons) (c : Nat) :
    ∀ (us : List Nat) (S : State) (pr : List (Nat × Int)) (q : List Nat),
      masksOK S → domsNodup S → prunedAbsent S pr →
      ∀ w a, a ∈ cur_domain S w →
        a ∉ cur_domain (scanScope net c us S pr q).2.1 w →
        (w, a) ∈ (scanScope net c us S pr q).2.2.1 ∧
        ∀ cv ∈ get_cons_with_var net w, cv ∈ (scanScope net c us S pr q).2.2.2
  | [], S, pr, q => fun _ _ _ w a ha hna => absurd ha hna
  | u :: us, S, pr, q => fun hm hn hab w a ha hna => by
    by_cases hu : isAssigned S u = true
    · rw [scanScope_cons_assigned us hu] at hna ⊢
      exact scanScope_completeness net c us S pr q hm hn hab w a ha hna
    · obtain ⟨w1, w2, w3, -⟩ :=
        scanVals_wf net c u (List.range (getVarS S u).curdom.length) S pr q 0
          hm hn hab
      have hcomp := scanVals_completeness net c u
        (List.range (getVarS S u).curdom.length) S pr q 0 hm hn
      rcases hsv : scanVals net c u (List.range (getVarS S u).curdom.length)
          S pr q 0 with ⟨S1, pr1, q1, cnt⟩
      rw [hsv] at w1 w2 w3 hcomp
      simp only at w1 w2 w3 hcomp
      have hunf : scanScope net c (u :: us) S pr q =
          if cnt = domain_size S1 u then (false, S1, pr1, q1)
          else scanScope net c us S1 pr1 q1 := by
        simp only [scanScope, if_neg hu, hsv]
      rw [hunf] at hna ⊢
      by_cases hcnt : cnt = domain_size S1 u
      · rw [if_pos hcnt] at hna ⊢
        exact hcomp w a ha hna
      · rw [if_neg hcnt] at hna ⊢
        by_cases ha1 : a ∈ cur_domain S1 w
        · exact scanScope_completeness net c us S1 pr1 q1 w1 w2 w3 w a ha1 hna
        · obtain ⟨hmem, henq⟩ := hcomp w a ha ha1
          obtain ⟨t1, ht1⟩ := (scanScope_basic net c us S1 pr1 q1).1
          obtain ⟨t2, ht2⟩ := (scanScope_basic net c us S1 pr1 q1).2.1
          refine ⟨by rw [ht1]; exact List.mem_append_left _ hmem, ?_⟩
          intro cv hcv
          rw [ht2]
          exact List.mem_append_left _ (henq cv hcv)

lemma scanScope_qsrc (net : List Cons) (c : Nat) :
    ∀ (us : List Nat) (S : State) (pr : List (Nat × Int)) (q : List Nat)
      (j : Nat),
      j ∈ (scanScope net c us S pr q).2.2.2 → j ∈ q ∨ j < net.length
  | [], S, pr, q, j => fun h => Or.inl h
  | u :: us, S, pr, q, j => fun hj => by
    by_cases hu : isAssigned S u = true
    · rw [scanScope_cons_assigned us hu] at hj
      exact scanScope_qsrc net c us S pr q j hj
    · have hq1 := scanVals_qsrc net c u
        (List.range (getVarS S u).curdom.length) S pr q 0 j
      rcases hsv : scanVals net c u (List.range (getVarS S u).curdom.length)
          S pr q 0 with ⟨S1, pr1, q1, cnt⟩
      rw [hsv] at hq1
      simp only at hq1
      have hunf : scanScope net c (u :: us) S pr q =
          if cnt = domain_size S1 u then (false, S1, pr1, q1)
          else scanScope net c us S1 pr1 q1 := by
        simp only [scanScope, if_neg hu, hsv]
      rw [hunf] at hj
      by_cases hcnt : cnt = domain_size S1 u
      · rw [if_pos hcnt] at hj
        exact hq1 hj
      · rw [if_neg hcnt] at hj
        rcases scanScope_qsrc net c us S1 pr1 q1 j hj with h | h
        · exact hq1 h
        · exact Or.inr h

/-! ## Queue growth bounds and the measure -/

lemma enqueueFold_length (net : List Cons) (c : Nat) :
    ∀ (l q : List Nat), (enqueueFold net c q l).length ≤ q.length + l.length
  | [], q => Nat.le_of_eq rfl
  | cv :: rest, q => by
    simp only [enqueueFold]
    split
    · calc (enqueueFold net c (enqueue q cv) rest).length
          ≤ (enqueue q cv).length + rest.length := enqueueFold_length net c rest _
        _ = q.length + (cv :: rest).length := by simp [enqueue]; omega
    · calc (enqueueFold net c q rest).length
          ≤ q.length + rest.length := enqueueFold_length net c rest q
        _ ≤ q.length + (cv :: rest).length := by simp

lemma cons_with_var_length_le (net : List Cons) (u : Nat) :
    (get_cons_with_var net u).length ≤ net.length := by
  calc (get_cons_with_var net u).length
      ≤ (List.range net.length).length := List.length_filter_le _ _
    _ = net.length := List.length_range _

lemma enqueueStep_length (net : List Cons) (c : Nat) (q : List Nat) (u : Nat) :
    (enqueueStep net c q u).length ≤ q.length + net.length :=
  le_trans (enqueueFold_length net c _ q)
    (Nat.add_le_add_left (cons_with_var_length_le net u) _)

lemma scanVals_growth (net : List Cons) (c u : Nat) :
    ∀ (idxs : List Nat) (S : State) (pr : List (Nat × Int)) (q : List Nat)
      (cnt : Nat),
      (scanVals net c u idxs S pr q cnt).2.2.1.length ≤ q.length +
        ((scanVals net c u idxs S pr q cnt).2.1.length - pr.length) * net.length
  | [], S, pr, q, cnt => by simp [scanVals]
  | idx :: rest, S, pr, q, cnt => by
    by_cases hmask : (getVarS S u).curdom.getD idx false = true
    · by_cases hpr : (u, (getVarS S u).dom.getD idx 0) ∈ pr
      · rw [scanVals_cons_skip rest hmask hpr]
        exact scanVals_growth net c u rest S pr q cnt
      · by_cases hsup : has_support S (net.getD c defaultCons) u
            ((getVarS S u).dom.getD idx 0) = true
        · rw [scanVals_cons_sup rest hmask hpr hsup]
          exact scanVals_growth net c u rest S pr q cnt
        · rw [scanVals_cons_prune rest hmask hpr hsup]
          have hrec := scanVals_growth net c u rest
            (prune_value S u ((getVarS S u).dom.getD idx 0))
            (pr ++ [(u, (getVarS S u).dom.getD idx 0)])
            (enqueueStep net c q u) (cnt + 1)
          obtain ⟨t, ht⟩ := (scanVals_basic net c u rest
            (prune_value S u ((getVarS S u).dom.getD idx 0))
            (pr ++ [(u, (getVarS S u).dom.getD idx 0)])
            (enqueueStep net c q u) (cnt + 1)).1
          have hq1 := enqueueStep_length net c q u
          rw [ht] at hrec ⊢
          have hlen : (pr ++ [(u, (getVarS S u).dom.getD idx 0)] ++ t).length
              = pr.length + 1 + t.length := by
            simp
            omega
          rw [hlen] at hrec ⊢
          have e1 : pr.length + 1 + t.length - (pr ++
              [(u, (getVarS S u).dom.getD idx 0)]).length = t.length := by
            simp
          rw [e1] at hrec
          refine le_trans hrec ?_
          have e2 : pr.length + 1 + t.length - pr.length = 1 + t.length := by omega
          rw [e2]
          have e3 : (1 + t.length) * net.length
              = net.length + t.length * net.length := by ring
          rw [e3, ← Nat.add_assoc]
          exact Nat.add_le_add_right hq1 _
    · rw [scanVals_cons_nomask rest hmask]
      exact scanVals_growth net c u rest S pr q (cnt + 1)

lemma scanScope_growth (net : List Cons) (c : Nat) :
    ∀ (us : List Nat) (S : State) (pr : List (Nat × Int)) (q : List Nat),
      (scanScope net c us S pr q).2.2.2.length ≤ q.length +
        ((scanScope net c us S pr q).2.2.1.length - pr.length) * net.length
  | [], S, pr, q => by simp [scanScope]
  | u :: us, S, pr, q => by
    by_cases hu : isAssigned S u = true
    · rw [scanScope_cons_assigned us hu]
      exact scanScope_growth net c us S pr q
    · obtain ⟨sv1, -⟩ :=
        scanVals_basic net c u (List.range (getVarS S u).curdom.length) S pr q 0
      have hsg := scanVals_growth net c u
        (List.range (getVarS S u).curdom.length) S pr q 0
      rcases hsv : scanVals net c u (List.range (getVarS S u).curdom.length)
          S pr q 0 with ⟨S1, pr1, q1, cnt⟩
      rw [hsv] at sv1 hsg
      simp only at sv1 hsg
      have hunf : scanScope net c (u :: us) S pr q =
          if cnt = domain_size S1 u then (false, S1, pr1, q1)
          else scanScope net c us S1 pr1 q1 := by
        simp only [scanScope, if_neg hu, hsv]
      rw [hunf]
      obtain ⟨t1, ht1⟩ := sv1
      by_cases hcnt : cnt = domain_size S1 u
      · rw [if_pos hcnt]
        exact hsg
      · rw [if_neg hcnt]
        have hrec := scanScope_growth net c us S1 pr1 q1
        obtain ⟨t2, ht2⟩ := (scanScope_basic net c us S1 pr1 q1).1
        rw [ht2] at hrec ⊢
        rw [ht1] at hrec hsg ⊢
        have e1 : (pr ++ t1 ++ t2).length - (pr ++ t1).length = t2.length := by
          simp only [List.length_append]
          omega
        have e2 : (pr ++ t1).length - pr.length = t1.length := by
          simp only [List.length_append]
          omega
        have e3 : (pr ++ t1 ++ t2).length - pr.length = t1.length + t2.length := by
          simp only [List.length_append]
          omega
        rw [e1] at hrec
        rw [e2] at hsg
        rw [e3]
        have e4 : (t1.length + t2.length) * net.length
            = t1.length * net.length + t2.length * net.length := by ring
        rw [e4]
        refine le_trans hrec ?_
        refine le_trans (Nat.add_le_add_right hsg (t2.length * net.length)) ?_
        exact le_of_eq (Nat.add_assoc _ _ _)

lemma totalDomLen_congr {S T : State} (hlen : T.length = S.length)
    (hdom : ∀ w, (getVarS T w).dom = (getVarS S w).dom) :
    totalDomLen T = totalDomLen S := by
  unfold totalDomLen
  rw [hlen]
  congr 1
  apply List.map_congr_left
  intro u _
  rw [hdom u]

lemma pruned_length_le {S : State} {pr : List (Nat × Int)} (hnd : pr.Nodup)
    (hv : prunedValid S pr) : pr.length ≤ totalDomLen S := by
  classical
  have hsub : ∀ p ∈ pr,
      p ∈ (List.range S.length).flatMap
        (fun u => (getVarS S u).dom.map (fun a => ((u : Nat), a))) := by
    intro p hp
    rw [List.mem_flatMap]
    refine ⟨p.1, List.mem_range.mpr (hv p hp).1, ?_⟩
    rw [List.mem_map]
    exact ⟨p.2, (hv p hp).2, rfl⟩
  have h1 : pr.length ≤ ((List.range S.length).flatMap
      (fun u => (getVarS S u).dom.map (fun a => ((u : Nat), a)))).length := by
    calc pr.length = pr.toFinset.card := (List.toFinset_card_of_nodup hnd).symm
      _ ≤ ((List.range S.length).flatMap
            (fun u => (getVarS S u).dom.map (fun a => ((u : Nat), a)))).toFinset.card := by
          apply Finset.card_le_card
          intro x hx
          rw [List.mem_toFinset] at hx ⊢
          exact hsub x hx
      _ ≤ _ := List.toFinset_card_le _
  refine le_trans h1 ?_
  rw [List.length_flatMap]
  unfold totalDomLen
  apply le_of_eq
  congr 1
  apply List.map_congr_left
  intro u _
  simp

/-! ## Arc-consistency transfer across a scan -/

lemma list_all_congr {α : Type} {l : List α} {f g : α → Bool}
    (h : ∀ a ∈ l, f a = g a) : l.all f = l.all g := by
  induction l with
  | nil => rfl
  | cons a l ih =>
    simp only [List.all_cons]
    rw [h a (List.mem_cons_self _ _), ih (fun b hb => h b (List.mem_cons_of_mem _ hb))]

lemma list_any_congr {α : Type} {l : List α} {f g : α → Bool}
    (h : ∀ a ∈ l, f a = g a) : l.any f = l.any g := by
  induction l with
  | nil => rfl
  | cons a l ih =>
    simp only [List.any_cons]
    rw [h a (List.mem_cons_self _ _), ih (fun b hb => h b (List.mem_cons_of_mem _ hb))]

lemma in_cur_domain_congr {S T : State} {w : Nat}
    (hassign : (getVarS T w).assignedValue = (getVarS S w).assignedValue)
    (hmem : ∀ b : Int, b ∈ cur_domain T w ↔ b ∈ cur_domain S w) (b : Int) :
    in_cur_domain T w b = in_cur_domain S w b := by
  unfold in_cur_domain
  rw [hassign]
  cases (getVarS S w).assignedValue with
  | none => simp [hmem b]
  | some a => rfl

lemma has_support_congr {S T : State} {cj : Cons}
    (h : ∀ w ∈ cj.scope, ∀ b : Int, in_cur_domain T w b = in_cur_domain S w b)
    (u : Nat) (val : Int) :
    has_support T cj u val = has_support S cj u val := by
  unfold has_support
  apply list_any_congr
  intro t _
  have hvalid : tuple_is_valid T cj t = tuple_is_valid S cj t := by
    unfold tuple_is_valid
    apply list_all_congr
    intro p hp
    exact h p.1 (List.of_mem_zip hp).1 p.2
  rw [hvalid]

lemma scanScope_AC_transfer (net : List Cons) (c : Nat) (us : List Nat)
    (S : State) (pr : List (Nat × Int)) (q : List Nat) (j : Nat)
    (hm : masksOK S) (hn : domsNodup S) (hab : prunedAbsent S pr)
    (hj : j < net.length) (hAC : arcConsistent net S j)
    (hnq : j ∉ (scanScope net c us S pr q).2.2.2) :
    arcConsistent net (scanScope net c us S pr q).2.1 j := by
  have hassigned := (scanScope_basic net c us S pr q).2.2.2.2.1
  have hanti := (scanScope_wf net c us S pr q hm hn hab).2.2.2.2.2.2
  have hcompl := scanScope_completeness net c us S pr q hm hn hab
  have hnoflip : ∀ w ∈ (net.getD j defaultCons).scope, ∀ b : Int,
      b ∈ cur_domain (scanScope net c us S pr q).2.1 w ↔ b ∈ cur_domain S w := by
    intro w hw b
    constructor
    · exact hanti w b
    · intro hb
      by_contra hc
      obtain ⟨-, henq⟩ := hcompl w b hb hc
      exact hnq (henq j (mem_cons_with_var_iff.mpr ⟨hj, hw⟩))
  intro u hu hassignU val hval
  have hA : isAssigned S u = false := by
    rw [← isAssigned_congr (hassigned u)]
    exact hassignU
  have hvalS : val ∈ cur_domain S u := hanti u val hval
  have hsup := hAC u hu hA val hvalS
  rw [has_support_congr
    (fun w hw b => in_cur_domain_congr (hassigned w) (hnoflip w hw) b) u val]
  exact hsup

/-! ## The GAC worklist loop -/

lemma gacLoopF_succ_nil (net : List Cons) (fuel : Nat) (S : State)
    (pr : List (Nat × Int)) (tch : List Nat) :
    gacLoopF net (fuel + 1) [] S pr tch = some (true, S, pr, tch) := rfl

lemma gacLoopF_succ_cons (net : List Cons) (fuel : Nat) (c : Nat)
    (rest : List Nat) (S : State) (pr : List (Nat × Int)) (tch : List Nat)
    {ok : Bool} {S1 : State} {pr1 : List (Nat × Int)} {q1 : List Nat}
    (hscan : scanScope net c (net.getD c defaultCons).scope S pr rest
      = (ok, S1, pr1, q1)) :
    gacLoopF net (fuel + 1) (c :: rest) S pr tch =
      if ok = true then gacLoopF net fuel q1 S1 pr1 (tch ++ q1)
      else some (false, S1, pr1, tch ++ q1) := by
  simp only [gacLoopF, dequeue, List.headD_cons, List.tail_cons, hscan]
  cases ok <;> simp

lemma gacLoopF_tch (net : List Cons) :
    ∀ (fuel : Nat) (q : List Nat) (S : State) (pr : List (Nat × Int))
      (tch : List Nat) (ok : Bool) (S' : State) (pr' : List (Nat × Int))
      (tch' : List Nat),
      gacLoopF net fuel q S pr tch = some (ok, S', pr', tch') →
      ∃ t, tch' = tch ++ t
  | 0, q, S, pr, tch, ok, S', pr', tch' => fun h => by cases h
  | fuel + 1, [], S, pr, tch, ok, S', pr', tch' => fun h => by
    rw [gacLoopF_succ_nil] at h
    simp only [Option.some.injEq, Prod.mk.injEq] at h
    exact ⟨[], by rw [← h.2.2.2]; simp⟩
  | fuel + 1, c :: rest, S, pr, tch, ok, S', pr', tch' => fun h => by
    rcases hscan : scanScope net c (net.getD c defaultCons).scope S pr rest
      with ⟨ok0, S1, pr1, q1⟩
    rw [gacLoopF_succ_cons net fuel c rest S pr tch hscan] at h
    cases ok0 with
    | false =>
      rw [if_neg (by simp)] at h
      simp only [Option.some.injEq, Prod.mk.injEq] at h
      exact ⟨q1, h.2.2.2.symm⟩
    | true =>
      rw [if_pos rfl] at h
      obtain ⟨t, ht⟩ := gacLoopF_tch net fuel q1 S1 pr1 (tch ++ q1) ok S' pr' tch' h
      exact ⟨q1 ++ t, by rw [ht, List.append_assoc]⟩

lemma gacLoopF_sound (net : List Cons) :
    ∀ (fuel : Nat) (q : List Nat) (S : State) (pr : List (Nat × Int))
      (tch : List Nat) (S' : State) (pr' : List (Nat × Int)) (tch' : List Nat),
      masksOK S → domsNodup S → prunedAbsent S pr →
      (∀ j ∈ q, j < net.length) → (∀ j ∈ q, j ∈ tch) →
      (∀ j ∈ tch, j ∉ q → arcConsistent net S j) →
      gacLoopF net fuel q S pr tch = some (true, S', pr', tch') →
      ∀ j ∈ tch', arcConsistent net S' j
  | 0, q, S, pr, tch, S', pr', tch' => fun _ _ _ _ _ _ h => by cases h
  | fuel + 1, [], S, pr, tch, S', pr', tch' =>
    fun hm hn hab hqv hqt hinv h => by
    rw [gacLoopF_succ_nil] at h
    simp only [Option.some.injEq, Prod.mk.injEq] at h
    obtain ⟨-, hS, -, htch⟩ := h
    intro j hj
    rw [← htch] at hj
    rw [← hS]
    exact hinv j hj (List.not_mem_nil j)
  | fuel + 1, c :: rest, S, pr, tch, S', pr', tch' =>
    fun hm hn hab hqv hqt hinv h => by
    rcases hscan : scanScope net c (net.getD c defaultCons).scope S pr rest
      with ⟨ok0, S1, pr1, q1⟩
    rw [gacLoopF_succ_cons net fuel c rest S pr tch hscan] at h
    cases ok0 with
    | false =>
      rw [if_neg (by simp)] at h
      simp at h
    | true =>
      rw [if_pos rfl] at h
      have hbasic := scanScope_basic net c (net.getD c defaultCons).scope S pr rest
      have hwf := scanScope_wf net c (net.getD c defaultCons).scope S pr rest
        hm hn hab
      rw [hscan] at hbasic hwf
      simp only at hbasic hwf
      obtain ⟨hprext, hqext, hlen, hdom, hassigned, hmask, hdich⟩ := hbasic
      obtain ⟨hm1, hn1, hab1, -, -, -, hanti⟩ := hwf
      have hcvalid : c < net.length := hqv c (List.mem_cons_self _ _)
      have hq1src : ∀ j ∈ q1, j < net.length := by
        intro j hj
        have hsrc := scanScope_qsrc net c (net.getD c defaultCons).scope S pr rest j
          (by rw [hscan]; exact hj)
        rcases hsrc with hr | hl
        · exact hqv j (List.mem_cons_of_mem _ hr)
        · exact hl
      have hinv1 : ∀ j ∈ tch ++ q1, j ∉ q1 → arcConsistent net S1 j := by
        intro j hj hnq1
        rcases List.mem_append.mp hj with hjt | hjq1
        · by_cases hjc : j = c
          · rw [hjc]
            rw [hjc] at hnq1
            by_cases hpr1 : pr1 = pr
            · have hnp := scanScope_noprune net c (net.getD c defaultCons).scope
                S pr rest (by rw [hscan]; exact hpr1)
              rw [hscan] at hnp
              simp only at hnp
              obtain ⟨hS1, hq1eq, hsupAll⟩ := hnp
              rw [hS1]
              intro u hu hA val hval
              exact hsupAll trivial u hu hA val hval (fun hmem => hab _ hmem hval)
            · have hcm := scanScope_cmem net c (net.getD c defaultCons).scope
                S pr rest (fun v hv => hv) hcvalid (by rw [hscan]; simpa using hpr1)
              rw [hscan] at hcm
              exact absurd hcm hnq1
          · have hjrest : j ∉ rest := by
              intro hjr
              obtain ⟨t, ht⟩ := hqext
              exact hnq1 (by rw [ht]; exact List.mem_append_left _ hjr)
            have hACj : arcConsistent net S j := hinv j hjt (by
              intro hjq
              rcases List.mem_cons.mp hjq with h' | h'
              · exact hjc h'
              · exact hjrest h')
            by_cases hjlen : j < net.length
            · have htr := scanScope_AC_transfer net c (net.getD c defaultCons).scope
                S pr rest j hm hn hab hjlen hACj (by rw [hscan]; exact hnq1)
              rw [hscan] at htr
              exact htr
            · intro u hu
              rw [List.getD_eq_default _ _ (Nat.le_of_not_lt hjlen)] at hu
              exact absurd hu (List.not_mem_nil u)
        · exact absurd hjq1 hnq1
      exact gacLoopF_sound net fuel q1 S1 pr1 (tch ++ q1) S' pr' tch'
        hm1 hn1 hab1 hq1src (fun j hj => List.mem_append_right _ hj) hinv1 h

lemma getD_mem_net {net : List Cons} {c : Nat} (h : c < net.length) :
    net.getD c defaultCons ∈ net := by
  rw [List.getD_eq_getElem _ _ h]
  exact List.getElem_mem h

lemma gacLoopF_fail (net : List Cons) :
    ∀ (fuel : Nat) (q : List Nat) (S : State) (pr : List (Nat × Int))
      (tch : List Nat) (S' : State) (pr' : List (Nat × Int)) (tch' : List Nat),
      masksOK S → domsNodup S → prunedAbsent S pr →
      (∀ j ∈ q, j < net.length) → scopesOK net S →
      gacLoopF net fuel q S pr tch = some (false, S', pr', tch') →
      ∃ u, u < S'.length ∧ isAssigned S' u = false ∧ cur_domain S' u = []
  | 0, q, S, pr, tch, S', pr', tch' => fun _ _ _ _ _ h => by cases h
  | fuel + 1, [], S, pr, tch, S', pr', tch' => fun _ _ _ _ _ h => by
    rw [gacLoopF_succ_nil] at h
    simp at h
  | fuel + 1, c :: rest, S, pr, tch, S', pr', tch' =>
    fun hm hn hab hqv hs h => by
    rcases hscan : scanScope net c (net.getD c defaultCons).scope S pr rest
      with ⟨ok0, S1, pr1, q1⟩
    rw [gacLoopF_succ_cons net fuel c rest S pr tch hscan] at h
    have hbasic := scanScope_basic net c (net.getD c defaultCons).scope S pr rest
    rw [hscan] at hbasic
    simp only at hbasic
    obtain ⟨-, -, hlen, hdom, -, -, -⟩ := hbasic
    cases ok0 with
    | false =>
      rw [if_neg (by simp)] at h
      simp only [Option.some.injEq, Prod.mk.injEq] at h
      obtain ⟨-, hS, -, -⟩ := h
      have hfl := scanScope_fail net c (net.getD c defaultCons).scope S pr rest
        hm hn hab (by rw [hscan])
      rw [hscan] at hfl
      simp only at hfl
      obtain ⟨u, humem, hua, hue⟩ := hfl
      refine ⟨u, ?_, ?_, ?_⟩
      · rw [← hS, hlen]
        exact hs _ (getD_mem_net (hqv c (List.mem_cons_self _ _))) u humem
      · rw [← hS]
        exact hua
      · rw [← hS]
        exact hue
    | true =>
      rw [if_pos rfl] at h
      have hwf := scanScope_wf net c (net.getD c defaultCons).scope S pr rest
        hm hn hab
      rw [hscan] at hwf
      simp only at hwf
      obtain ⟨hm1, hn1, hab1, -, -, -, -⟩ := hwf
      have hq1src : ∀ j ∈ q1, j < net.length := by
        intro j hj
        have hsrc := scanScope_qsrc net c (net.getD c defaultCons).scope S pr rest j
          (by rw [hscan]; exact hj)
        rcases hsrc with hr | hl
        · exact hqv j (List.mem_cons_of_mem _ hr)
        · exact hl
      have hs1 : scopesOK net S1 := by
        intro cc hcc u hu
        rw [hlen]
        exact hs cc hcc u hu
      exact gacLoopF_fail net fuel q1 S1 pr1 (tch ++ q1) S' pr' tch'
        hm1 hn1 hab1 hq1src hs1 h

lemma gacLoopF_complete (net : List Cons) :
    ∀ (fuel : Nat) (q : List Nat) (S : State) (pr : List (Nat × Int))
      (tch : List Nat) (ok : Bool) (S' : State) (pr' : List (Nat × Int))
      (tch' : List Nat),
      masksOK S → domsNodup S → prunedAbsent S pr →
      gacLoopF net fuel q S pr tch = some (ok, S', pr', tch') →
      (∃ t, pr' = pr ++ t) ∧
      (∀ w a, a ∈ cur_domain S w → a ∉ cur_domain S' w → (w, a) ∈ pr')
  | 0, q, S, pr, tch, ok, S', pr', tch' => fun _ _ _ h => by cases h
  | fuel + 1, [], S, pr, tch, ok, S', pr', tch' => fun _ _ _ h => by
    rw [gacLoopF_succ_nil] at h
    simp only [Option.some.injEq, Prod.mk.injEq] at h
    obtain ⟨-, hS, hpr, -⟩ := h
    refine ⟨⟨[], by rw [← hpr]; simp⟩, ?_⟩
    intro w a ha hna
    rw [← hS] at hna
    exact absurd ha hna
  | fuel + 1, c :: rest, S, pr, tch, ok, S', pr', tch' =>
    fun hm hn hab h => by
    rcases hscan : scanScope net c (net.getD c defaultCons).scope S pr rest
      with ⟨ok0, S1, pr1, q1⟩
    rw [gacLoopF_succ_cons net fuel c rest S pr tch hscan] at h
    have hbasic := scanScope_basic net c (net.getD c defaultCons).scope S pr rest
    have hcomp := scanScope_completeness net c (net.getD c defaultCons).scope
      S pr rest hm hn hab
    rw [hscan] at hbasic hcomp
    simp only at hbasic hcomp
    obtain ⟨hprext, -, -, -, -, -, -⟩ := hbasic
    cases ok0 with
    | false =>
      rw [if_neg (by simp)] at h
      simp only [Option.some.injEq, Prod.mk.injEq] at h
      obtain ⟨-, hS, hpr, -⟩ := h
      refine ⟨by rw [← hpr]; exact hprext, ?_⟩
      intro w a ha hna
      rw [← hS] at hna
      rw [← hpr]
      exact (hcomp w a ha hna).1
    | true =>
      rw [if_pos rfl] at h
      have hwf := scanScope_wf net c (net.getD c defaultCons).scope S pr rest
        hm hn hab
      rw [hscan] at hwf
      simp only at hwf
      obtain ⟨hm1, hn1, hab1, -, -, -, -⟩ := hwf
      obtain ⟨hext, hcmp⟩ := gacLoopF_complete net fuel q1 S1 pr1 (tch ++ q1)
        ok S' pr' tch' hm1 hn1 hab1 h
      constructor
      · obtain ⟨t1, ht1⟩ := hprext
        obtain ⟨t2, ht2⟩ := hext
        exact ⟨t1 ++ t2, by rw [ht2, ht1, List.append_assoc]⟩
      · intro w a ha hna
        by_cases ha1 : a ∈ cur_domain S1 w
        · exact hcmp w a ha1 hna
        · have hm1p := (hcomp w a ha ha1).1
          obtain ⟨t2, ht2⟩ := hext
          rw [ht2]
          exact List.mem_append_left _ hm1p

lemma gacLoopF_c6 (net : List Cons) :
    ∀ (fuel : Nat) (q : List Nat) (S : State) (pr : List (Nat × Int))
      (tch : List Nat) (ok : Bool) (S' : State) (pr' : List (Nat × Int))
      (tch' : List Nat),
      masksOK S → domsNodup S → prunedAbsent S pr → pr.Nodup →
      gacLoopF net fuel q S pr tch = some (ok, S', pr', tch') →
      pr'.Nodup ∧ prunedAbsent S' pr' ∧
      (∀ p ∈ pr', p ∈ pr ∨ p.2 ∈ cur_domain S p.1)
  | 0, q, S, pr, tch, ok, S', pr', tch' => fun _ _ _ _ h => by cases h
  | fuel + 1, [], S, pr, tch, ok, S', pr', tch' => fun _ _ hab hnd h => by
    rw [gacLoopF_succ_nil] at h
    simp only [Option.some.injEq, Prod.mk.injEq] at h
    obtain ⟨-, hS, hpr, -⟩ := h
    rw [← hS, ← hpr]
    exact ⟨hnd, hab, fun p hp => Or.inl hp⟩
  | fuel + 1, c :: rest, S, pr, tch, ok, S', pr', tch' =>
    fun hm hn hab hnd h => by
    rcases hscan : scanScope net c (net.getD c defaultCons).scope S pr rest
      with ⟨ok0, S1, pr1, q1⟩
    rw [gacLoopF_succ_cons net fuel c rest S pr tch hscan] at h
    have hwf := scanScope_wf net c (net.getD c defaultCons).scope S pr rest
      hm hn hab
    rw [hscan] at hwf
    simp only at hwf
    obtain ⟨hm1, hn1, hab1, hnd1, -, horig, hanti⟩ := hwf
    cases ok0 with
    | false =>
      rw [if_neg (by simp)] at h
      simp only [Option.some.injEq, Prod.mk.injEq] at h
      obtain ⟨-, hS, hpr, -⟩ := h
      rw [← hS, ← hpr]
      exact ⟨hnd1 hnd, hab1, horig⟩
    | true =>
      rw [if_pos rfl] at h
      obtain ⟨ih1, ih2, ih3⟩ := gacLoopF_c6 net fuel q1 S1 pr1 (tch ++ q1)
        ok S' pr' tch' hm1 hn1 hab1 (hnd1 hnd) h
      refine ⟨ih1, ih2, ?_⟩
      intro p hp
      rcases ih3 p hp with hp2 | hp2
      · exact horig p hp2
      · exact Or.inr (hanti p.1 p.2 hp2)

lemma gacLoopF_isSome (net : List Cons) :
    ∀ (fuel : Nat) (q : List Nat) (S : State) (pr : List (Nat × Int))
      (tch : List Nat),
      masksOK S → domsNodup S → prunedAbsent S pr → pr.Nodup →
      prunedValid S pr →
      (totalDomLen S - pr.length) * (net.length + 1) + q.length < fuel →
      (gacLoopF net fuel q S pr tch).isSome = true
  | 0, q, S, pr, tch => fun _ _ _ _ _ hrank => absurd hrank (Nat.not_lt_zero _)
  | fuel + 1, [], S, pr, tch => fun _ _ _ _ _ _ => rfl
  | fuel + 1, c :: rest, S, pr, tch => fun hm hn hab hnd hv hrank => by
    rcases hscan : scanScope net c (net.getD c defaultCons).scope S pr rest
      with ⟨ok0, S1, pr1, q1⟩
    rw [gacLoopF_succ_cons net fuel c rest S pr tch hscan]
    cases ok0 with
    | false =>
      rw [if_neg (by simp)]
      rfl
    | true =>
      rw [if_pos rfl]
      have hbasic := scanScope_basic net c (net.getD c defaultCons).scope S pr rest
      have hwf := scanScope_wf net c (net.getD c defaultCons).scope S pr rest
        hm hn hab
      have hgrow := scanScope_growth net c (net.getD c defaultCons).scope S pr rest
      rw [hscan] at hbasic hwf hgrow
      simp only at hbasic hwf hgrow
      obtain ⟨hprext, -, hlen, hdom, -, -, hdich⟩ := hbasic
      obtain ⟨hm1, hn1, hab1, hnd1, hv1, -, -⟩ := hwf
      have hD : totalDomLen S1 = totalDomLen S := totalDomLen_congr hlen hdom
      apply gacLoopF_isSome net fuel q1 S1 pr1 (tch ++ q1) hm1 hn1 hab1
        (hnd1 hnd) (hv1 hv)
      rw [hD]
      rcases hdich with ⟨hS1, hpr1, hq1⟩ | hlt
      · rw [hpr1, hq1]
        obtain ⟨A, hA⟩ : ∃ A, (totalDomLen S - pr.length) * (net.length + 1) = A :=
          ⟨_, rfl⟩
        rw [hA] at hrank ⊢
        simp only [List.length_cons] at hrank
        omega
      · have hbound : pr1.length ≤ totalDomLen S := by
          rw [← hD]
          exact pruned_length_le (hnd1 hnd) (hv1 hv)
        have hsplit : totalDomLen S - pr.length =
            (totalDomLen S - pr1.length) + (pr1.length - pr.length) := by omega
        have e2 : (totalDomLen S - pr.length) * (net.length + 1) =
            (totalDomLen S - pr1.length) * (net.length + 1) +
            ((pr1.length - pr.length) * net.length + (pr1.length - pr.length)) := by
          rw [hsplit, Nat.add_mul]
          ring
        obtain ⟨A, hA⟩ : ∃ A,
            (totalDomLen S - pr1.length) * (net.length + 1) = A := ⟨_, rfl⟩
        obtain ⟨B, hB⟩ : ∃ B, (pr1.length - pr.length) * net.length = B := ⟨_, rfl⟩
        rw [hA, hB] at e2
        rw [e2] at hrank
        rw [hA]
        rw [hB] at hgrow
        simp only [List.length_cons] at hrank
        omega

/-! ## Forward checking: pruning invariants -/

lemma fcSnapshot_mem {S : State} {x : Nat} (hm : masksOK S) {v : Int}
    (h : v ∈ fcSnapshot S x) : v ∈ cur_domain S x := by
  unfold fcSnapshot at h
  rw [List.mem_filterMap] at h
  obtain ⟨idx, hidx, hv⟩ := h
  by_cases hmask : (getVarS S x).curdom.getD idx false = true
  · rw [if_pos hmask] at hv
    injection hv with hv
    rw [← hv]
    exact mem_cur_domain_of_mask hm hmask
  · rw [if_neg hmask] at hv
    cases hv

lemma fcSnapshot_nodup {S : State} {x : Nat} (hm : masksOK S)
    (hn : domsNodup S) : (fcSnapshot S x).Nodup := by
  unfold fcSnapshot
  apply List.Nodup.filterMap
  · intro i j b hbi hbj
    by_cases hmi : (getVarS S x).curdom.getD i false = true
    · by_cases hmj : (getVarS S x).curdom.getD j false = true
      · rw [if_pos hmi] at hbi
        rw [if_pos hmj] at hbj
        rw [Option.mem_def] at hbi hbj
        injection hbi with hbi
        injection hbj with hbj
        by_contra hij
        have hi : i < (getVarS S x).dom.length := by
          rw [← getVarS_mask_len hm x]
          exact getD_true_lt_length hmi
        have hj : j < (getVarS S x).dom.length := by
          rw [← getVarS_mask_len hm x]
          exact getD_true_lt_length hmj
        exact nodup_getD_ne (getVarS_dom_nodup hn x) hi hj hij (hbi.trans hbj.symm)
      · rw [if_neg hmj] at hbj
        cases hbj
    · rw [if_neg hmi] at hbi
      cases hbi
  · exact List.nodup_range _

lemma fcVals_spec (c : Cons) (x : Nat) :
    ∀ (vls : List Int) (S : State) (acc : List (Nat × Int)),
      masksOK S → domsNodup S → (getVarS S x).assignedValue = none →
      prunedAbsent S acc → acc.Nodup →
      vls.Nodup → (∀ v ∈ vls, v ∈ cur_domain S x) →
      masksOK (fcVals c x vls S acc).2.1 ∧
      domsNodup (fcVals c x vls S acc).2.1 ∧
      prunedAbsent (fcVals c x vls S acc).2.1 (fcVals c x vls S acc).2.2 ∧
      (fcVals c x vls S acc).2.2.Nodup ∧
      (∀ p ∈ (fcVals c x vls S acc).2.2, p ∈ acc ∨ p.2 ∈ cur_domain S p.1) ∧
      (∀ w a, a ∈ cur_domain (fcVals c x vls S acc).2.1 w → a ∈ cur_domain S w)
  | [], S, acc => fun hm hn _ hab hnd _ _ =>
    ⟨hm, hn, hab, hnd, fun p hp => Or.inl hp, fun w a h => h⟩
  | xVal :: rest, S, acc => fun hm hn hx hab hnd hvnd hvmem => by
    have hS2 : unassign (assign S x xVal) x = S := assign_unassign hx xVal
    simp only [fcVals, hS2]
    by_cases hc : check c
        (List.map (fun u => get_assigned_value (assign S x xVal) u) c.scope) = true
    · rw [if_pos hc]
      by_cases hd : cur_domain ((S, acc) : State × List (Nat × Int)).1 x = []
      · rw [if_pos hd]
        exact ⟨hm, hn, hab, hnd, fun p hp => Or.inl hp, fun w a h => h⟩
      · rw [if_neg hd]
        exact fcVals_spec c x rest S acc hm hn hx hab hnd hvnd.of_cons
          (fun v hv => hvmem v (List.mem_cons_of_mem _ hv))
    · rw [if_neg hc]
      have hxv : xVal ∈ cur_domain S x := hvmem xVal (List.mem_cons_self _ _)
      have hnotacc : (x, xVal) ∉ acc := fun hmem => hab _ hmem hxv
      have hm3 : masksOK (prune_value S x xVal) := prune_masksOK hm x xVal
      have hn3 : domsNodup (prune_value S x xVal) := prune_domsNodup hn x xVal
      have hx3 : (getVarS (prune_value S x xVal) x).assignedValue = none := by
        rw [prune_assigned]
        exact hx
      have hab3 : prunedAbsent (prune_value S x xVal) (acc ++ [(x, xVal)]) := by
        intro p hp
        rcases List.mem_append.mp hp with hp | hp
        · intro hin
          exact hab p hp (cur_domain_prune_subset hn x xVal p.1 hin)
        · rcases List.mem_singleton.mp hp with rfl
          intro hin
          exact ((mem_cur_domain_prune hn x xVal x xVal).mp hin).2 ⟨rfl, rfl⟩
      have hnd3 : (acc ++ [(x, xVal)]).Nodup := by
        rw [← List.concat_eq_append]
        exact List.Nodup.concat hnotacc hnd
      have hvmem3 : ∀ v ∈ rest, v ∈ cur_domain (prune_value S x xVal) x := by
        intro v hv
        refine (mem_cur_domain_prune hn x xVal x v).mpr
          ⟨hvmem v (List.mem_cons_of_mem _ hv), ?_⟩
        rintro ⟨-, rfl⟩
        exact (List.nodup_cons.mp hvnd).1 hv
      by_cases hd : cur_domain
          ((prune_value S x xVal, acc ++ [(x, xVal)]) : State × List (Nat × Int)).1
            x = []
      · rw [if_pos hd]
        refine ⟨hm3, hn3, hab3, hnd3, ?_, ?_⟩
        · intro p hp
          rcases List.mem_append.mp hp with hp | hp
          · exact Or.inl hp
          · rcases List.mem_singleton.mp hp with rfl
            exact Or.inr hxv
        · exact fun w a h => cur_domain_prune_subset hn x xVal w h
      · rw [if_neg hd]
        obtain ⟨ih1, ih2, ih3, ih4, ih5, ih6⟩ := fcVals_spec c x rest
          (prune_value S x xVal) (acc ++ [(x, xVal)]) hm3 hn3 hx3 hab3 hnd3
          hvnd.of_cons hvmem3
        refine ⟨ih1, ih2, ih3, ih4, ?_, ?_⟩
        · intro p hp
          rcases ih5 p hp with hp2 | hp2
          · rcases List.mem_append.mp hp2 with hp3 | hp3
            · exact Or.inl hp3
            · rcases List.mem_singleton.mp hp3 with rfl
              exact Or.inr hxv
          · exact Or.inr (cur_domain_prune_subset hn x xVal p.1 hp2)
        · exact fun w a h => cur_domain_prune_subset hn x xVal w (ih6 w a h)

lemma fcLoop_spec (net : List Cons) :
    ∀ (l : List Nat) (S : State) (acc : List (Nat × Int)),
      masksOK S → domsNodup S → prunedAbsent S acc → acc.Nodup →
      masksOK (fcLoop net l S acc).2.1 ∧
      domsNodup (fcLoop net l S acc).2.1 ∧
      prunedAbsent (fcLoop net l S acc).2.1 (fcLoop net l S acc).2.2 ∧
      (fcLoop net l S acc).2.2.Nodup ∧
      (∀ p ∈ (fcLoop net l S acc).2.2, p ∈ acc ∨ p.2 ∈ cur_domain S p.1) ∧
      (∀ w a, a ∈ cur_domain (fcLoop net l S acc).2.1 w → a ∈ cur_domain S w)
  | [], S, acc => fun hm hn hab hnd =>
    ⟨hm, hn, hab, hnd, fun p hp => Or.inl hp, fun w a h => h⟩
  | j :: rest, S, acc => fun hm hn hab hnd => by
    simp only [fcLoop]
    split
    · next hn1 =>
      set c := net.getD j defaultCons with hcdef
      set x := (get_unasgn_vars S c).headD 0 with hxdef
      have hx : (getVarS S x).assignedValue = none := by
        rw [← isAssigned_eq_false_iff]
        exact head_unasgn hn1
      split
      · next hdom =>
        exact ⟨hm, hn, fun p hp => absurd hp (List.not_mem_nil p),
          List.nodup_nil, fun p hp => absurd hp (List.not_mem_nil p),
          fun w a h => h⟩
      · next hdom =>
        have hfv := fcVals_spec c x (fcSnapshot S x) S acc hm hn hx hab hnd
          (fcSnapshot_nodup hm hn) (fun v hv => fcSnapshot_mem hm hv)
        split
        next S' acc' heq =>
          rw [heq] at hfv
          simp only at hfv
          obtain ⟨f1, f2, f3, f4, f5, f6⟩ := hfv
          obtain ⟨ih1, ih2, ih3, ih4, ih5, ih6⟩ :=
            fcLoop_spec net rest S' acc' f1 f2 f3 f4
          refine ⟨ih1, ih2, ih3, ih4, ?_, ?_⟩
          · intro p hp
            rcases ih5 p hp with hp2 | hp2
            · rcases f5 p hp2 with hp3 | hp3
              · exact Or.inl hp3
              · exact Or.inr hp3
            · exact Or.inr (f6 p.1 p.2 hp2)
          · exact fun w a h => f6 w a (ih6 w a h)
        next S' acc' heq =>
          rw [heq] at hfv
          simp only at hfv
          exact hfv
    · exact fcLoop_spec net rest S acc hm hn hab hnd

/-- C3 counterexample: processing the dequeued constraint `0` (one
variable with domain `{1, 2}`, single satisfying tuple `(1)`) with an
empty remaining worklist prunes value `2` from its scope variable and
re-enqueues constraint `0` itself during its own processing step — the
resulting worklist is exactly `[0]`. -/
theorem gac_reenqueues_dequeued_cons_cex :
    (scanScope [⟨"a", [0], [[1]]⟩] 0 [0]
        [⟨"v", [1, 2], [true, true], none⟩] [] []).2.2.1 = [(0, 2)] ∧
    (scanScope [⟨"a", [0], [[1]]⟩] 0 [0]
        [⟨"v", [1, 2], [true, true], none⟩] [] []).2.2.2 = [0] ∧
    (scanScope [⟨"a", [0], [[1]]⟩] 0 [0]
        [⟨"v", [1, 2], [true, true], none⟩] [] []).1 = true := by
  decide

/-- C3 amended: when a value is pruned from `v` while processing the
dequeued constraint `c`, the enqueue step walks every constraint
referencing `v` and appends it to the worklist unless it is already in the
worklist AND bears the same name as `c` — the skip is decided by worklist
membership together with name comparison, not by object identity.
Consequently every constraint referencing `v` is in the worklist
afterwards, `c` itself not excepted: `c` is re-enqueued whenever it
references `v` (it always does, `v` being in its scope) and is not
currently in the worklist. -/
theorem gac_enqueue_by_membership_and_name (net : List Cons) (c : Nat)
    (q : List Nat) (u : Nat) :
    (∀ cv ∈ get_cons_with_var net u, cv ∈ enqueueStep net c q u) ∧
    (∀ j ∈ q, j ∈ enqueueStep net c q u) ∧
    (c ∈ get_cons_with_var net u → c ∈ enqueueStep net c q u) :=
  ⟨fun _ h => mem_enqueueStep_of_cons_with_var h,
   fun _ h => mem_enqueueStep_of_mem_q h,
   fun h => mem_enqueueStep_of_cons_with_var h⟩

/-- Witness for the amended C3: the dequeued constraint `0` references
variable `0` and, the worklist being empty, is re-enqueued by its own
enqueue step. -/
theorem gac_enqueue_by_membership_and_name_witness :
    0 ∈ get_cons_with_var [(⟨"a", [0], [[1]]⟩ : Cons)] 0 ∧
    0 ∈ enqueueStep [(⟨"a", [0], [[1]]⟩ : Cons)] 0 [] 0 :=
  ⟨by decide,
   (gac_enqueue_by_membership_and_name [(⟨"a", [0], [[1]]⟩ : Cons)] 0 [] 0).2.2
     (by decide)⟩

/-! ## Top-level GAC plumbing -/

lemma gacSeed_valid (net : List Cons) (newVar : Option Nat) :
    ∀ j ∈ gacSeed net newVar, j < net.length := by
  intro j hj
  cases newVar with
  | none => simpa [gacSeed] using hj
  | some v => exact (mem_cons_with_var_iff.mp (by simpa [gacSeed] using hj)).1

lemma gacFuel_rank (net : List Cons) (S : State) (q : List Nat) :
    (totalDomLen S - ([] : List (Nat × Int)).length) * (net.length + 1) +
      q.length < gacFuel net S q := by
  simp only [List.length_nil, Nat.sub_zero, gacFuel]
  rw [Nat.add_mul, Nat.one_mul]
  obtain ⟨A, hA⟩ : ∃ A, totalDomLen S * (net.length + 1) = A := ⟨_, rfl⟩
  rw [hA]
  omega

lemma gacRun_of_loop {net : List Cons} {S : State} {newVar : Option Nat}
    {r : Bool × State × List (Nat × Int) × List Nat}
    (h : gacLoopF net (gacFuel net S (gacSeed net newVar)) (gacSeed net newVar)
        S [] (gacSeed net newVar) = some r) :
    gacRun net S newVar = r := by
  simp only [gacRun]
  rw [h]

lemma gacLoop_run_some (net : List Cons) (S : State) (newVar : Option Nat)
    (hm : masksOK S) (hn : domsNodup S) :
    gacLoopF net (gacFuel net S (gacSeed net newVar)) (gacSeed net newVar)
        S [] (gacSeed net newVar) =
      some ((gacRun net S newVar).1, (gacRun net S newVar).2.1,
        (gacRun net S newVar).2.2.1, (gacRun net S newVar).2.2.2) := by
  have hsome := gacLoopF_isSome net (gacFuel net S (gacSeed net newVar))
    (gacSeed net newVar) S [] (gacSeed net newVar) hm hn
    (fun p hp => absurd hp (List.not_mem_nil p)) List.nodup_nil
    (fun p hp => absurd hp (List.not_mem_nil p))
    (gacFuel_rank net S (gacSeed net newVar))
  rcases hrun : gacLoopF net (gacFuel net S (gacSeed net newVar))
      (gacSeed net newVar) S [] (gacSeed net newVar) with _ | r
  · rw [hrun] at hsome
    cases hsome
  · rw [gacRun_of_loop hrun]

/-- C1: on success of `prop_GAC`, arc consistency holds on the closure of
the seed set: the ghost accumulator of `gacRun` records every constraint
that was ever on the worklist (the constraints reachable transitively from
the seed set — all constraints referencing `newVar`, or all constraints
when `newVar` is absent), it contains the seed set, and in the resulting
state every constraint in it is arc-consistent: every value remaining in
the current domain of every unassigned variable of its scope has support
under it. -/
theorem prop_GAC_sound (net : List Cons) (S : State) (newVar : Option Nat)
    (hm : masksOK S) (hn : domsNodup S)
    (hok : (prop_GAC net S newVar).1 = true) :
    (∀ j ∈ gacSeed net newVar, j ∈ (gacRun net S newVar).2.2.2) ∧
    ∀ j ∈ (gacRun net S newVar).2.2.2,
      arcConsistent net (prop_GAC net S newVar).2.1 j := by
  have hrun := gacLoop_run_some net S newVar hm hn
  have hok' : (gacRun net S newVar).1 = true := hok
  rw [hok'] at hrun
  constructor
  · intro j hj
    obtain ⟨t, ht⟩ := gacLoopF_tch net _ _ _ _ _ _ _ _ _ hrun
    rw [ht]
    exact List.mem_append_left _ hj
  · exact gacLoopF_sound net (gacFuel net S (gacSeed net newVar))
      (gacSeed net newVar) S [] (gacSeed net newVar)
      (gacRun net S newVar).2.1 (gacRun net S newVar).2.2.1
      (gacRun net S newVar).2.2.2 hm hn
      (fun p hp => absurd hp (List.not_mem_nil p))
      (gacSeed_valid net newVar) (fun j hj => hj)
      (fun j hj hnj => absurd hj hnj) hrun

/-- Witness for C1 at a one-constraint, one-variable network on which
`prop_GAC` succeeds. -/
theorem prop_GAC_sound_witness :
    (masksOK [(⟨"v", [1], [true], none⟩ : Var)] ∧
     domsNodup [(⟨"v", [1], [true], none⟩ : Var)] ∧
     (prop_GAC [(⟨"a", [0], [[1]]⟩ : Cons)]
        [(⟨"v", [1], [true], none⟩ : Var)] none).1 = true) ∧
    ((∀ j ∈ gacSeed [(⟨"a", [0], [[1]]⟩ : Cons)] none,
        j ∈ (gacRun [(⟨"a", [0], [[1]]⟩ : Cons)]
          [(⟨"v", [1], [true], none⟩ : Var)] none).2.2.2) ∧
      ∀ j ∈ (gacRun [(⟨"a", [0], [[1]]⟩ : Cons)]
          [(⟨"v", [1], [true], none⟩ : Var)] none).2.2.2,
        arcConsistent [(⟨"a", [0], [[1]]⟩ : Cons)]
          (prop_GAC [(⟨"a", [0], [[1]]⟩ : Cons)]
            [(⟨"v", [1], [true], none⟩ : Var)] none).2.1 j) :=
  ⟨⟨by decide, by decide, by decide⟩,
   prop_GAC_sound [(⟨"a", [0], [[1]]⟩ : Cons)]
     [(⟨"v", [1], [true], none⟩ : Var)] none
     (by decide) (by decide) (by decide)⟩

/-- C5: `prop_GAC` dead-end detection. If the call returns failure, some
variable of the resulting state is unassigned with an empty current
domain (the variable whose absent-value count reached its full domain
size); and the returned pruned list is complete: every value present
before the call and absent after it is recorded, so all prunes recorded
so far are returned. Contrapositively, if no variable's current domain is
emptied, the call does not return failure. -/
theorem prop_GAC_deadend (net : List Cons) (S : State) (newVar : Option Nat)
    (hm : masksOK S) (hn : domsNodup S) (hs : scopesOK net S) :
    ((prop_GAC net S newVar).1 = false →
      ∃ u, u < (prop_GAC net S newVar).2.1.length ∧
        isAssigned (prop_GAC net S newVar).2.1 u = false ∧
        cur_domain (prop_GAC net S newVar).2.1 u = []) ∧
    ∀ w a, a ∈ cur_domain S w →
      a ∉ cur_domain (prop_GAC net S newVar).2.1 w →
      (w, a) ∈ (prop_GAC net S newVar).2.2 := by
  have hrun := gacLoop_run_some net S newVar hm hn
  constructor
  · intro hfail
    have hfail' : (gacRun net S newVar).1 = false := hfail
    rw [hfail'] at hrun
    exact gacLoopF_fail net _ _ _ _ _ _ _ _ hm hn
      (fun p hp => absurd hp (List.not_mem_nil p)) (gacSeed_valid net newVar)
      hs hrun
  · have hcomp := gacLoopF_complete net _ _ _ _ _ _ _ _ _ hm hn
      (fun p hp => absurd hp (List.not_mem_nil p)) hrun
    exact fun w a ha hna => hcomp.2 w a ha hna

/-- Witness for C5 at a one-constraint network on which `prop_GAC` fails:
the single domain value has no support, is pruned and reported, and the
emptied domain is detected. -/
theorem prop_GAC_deadend_witness :
    (masksOK [(⟨"v", [1], [true], none⟩ : Var)] ∧
     domsNodup [(⟨"v", [1], [true], none⟩ : Var)] ∧
     scopesOK [(⟨"a", [0], [[2]]⟩ : Cons)]
       [(⟨"v", [1], [true], none⟩ : Var)]) ∧
    (((prop_GAC [(⟨"a", [0], [[2]]⟩ : Cons)]
          [(⟨"v", [1], [true], none⟩ : Var)] none).1 = false →
      ∃ u, u < (prop_GAC [(⟨"a", [0], [[2]]⟩ : Cons)]
          [(⟨"v", [1], [true], none⟩ : Var)] none).2.1.length ∧
        isAssigned (prop_GAC [(⟨"a", [0], [[2]]⟩ : Cons)]
          [(⟨"v", [1], [true], none⟩ : Var)] none).2.1 u = false ∧
        cur_domain (prop_GAC [(⟨"a", [0], [[2]]⟩ : Cons)]
          [(⟨"v", [1], [true], none⟩ : Var)] none).2.1 u = []) ∧
    ∀ w a, a ∈ cur_domain [(⟨"v", [1], [true], none⟩ : Var)] w →
      a ∉ cur_domain (prop_GAC [(⟨"a", [0], [[2]]⟩ : Cons)]
          [(⟨"v", [1], [true], none⟩ : Var)] none).2.1 w →
      (w, a) ∈ (prop_GAC [(⟨"a", [0], [[2]]⟩ : Cons)]
          [(⟨"v", [1], [true], none⟩ : Var)] none).2.2) :=
  ⟨⟨by decide, by decide, by decide⟩,
   prop_GAC_deadend [(⟨"a", [0], [[2]]⟩ : Cons)]
     [(⟨"v", [1], [true], none⟩ : Var)] none
     (by decide) (by decide) (by decide)⟩

/-- C6: no double-prune. In a single call of `prop_FC` or of `prop_GAC`,
each (variable, value) pair appears in the returned pruned list at most
once (the list is duplicate-free); every pruned value was present in the
variable's current domain at the start of the call (domains only shrink
during the call, and the per-step guards prune only values whose mask bit
is currently set, so no already-absent value is ever pruned); and every
recorded pruned value is absent from the resulting current domain. -/
theorem no_double_prune (net : List Cons) (S : State) (newVar : Option Nat)
    (hm : masksOK S) (hn : domsNodup S) :
    ((prop_FC net S newVar).2.2.Nodup ∧
      ∀ p ∈ (prop_FC net S newVar).2.2,
        p.2 ∈ cur_domain S p.1 ∧
        p.2 ∉ cur_domain (prop_FC net S newVar).2.1 p.1) ∧
    ((prop_GAC net S newVar).2.2.Nodup ∧
      ∀ p ∈ (prop_GAC net S newVar).2.2,
        p.2 ∈ cur_domain S p.1 ∧
        p.2 ∉ cur_domain (prop_GAC net S newVar).2.1 p.1) := by
  constructor
  · cases newVar with
    | none =>
      obtain ⟨-, -, f3, f4, f5, -⟩ := fcLoop_spec net (List.range net.length) S []
        hm hn (fun p hp => absurd hp (List.not_mem_nil p)) List.nodup_nil
      exact ⟨f4, fun p hp =>
        ⟨(f5 p hp).resolve_left (List.not_mem_nil p), f3 p hp⟩⟩
    | some v =>
      obtain ⟨-, -, f3, f4, f5, -⟩ := fcLoop_spec net (get_cons_with_var net v)
        S [] hm hn (fun p hp => absurd hp (List.not_mem_nil p)) List.nodup_nil
      exact ⟨f4, fun p hp =>
        ⟨(f5 p hp).resolve_left (List.not_mem_nil p), f3 p hp⟩⟩
  · have hrun := gacLoop_run_some net S newVar hm hn
    obtain ⟨g1, g2, g3⟩ := gacLoopF_c6 net _ _ _ _ _ _ _ _ _ hm hn
      (fun p hp => absurd hp (List.not_mem_nil p)) List.nodup_nil hrun
    refine ⟨g1, fun p hp => ⟨?_, g2 p hp⟩⟩
    rcases g3 p hp with h | h
    · exact absurd h (List.not_mem_nil p)
    · exact h

/-- Witness for C6 at a one-constraint network on which both propagators
prune. -/
theorem no_double_prune_witness :
    (masksOK [(⟨"v", [1, 2], [true, true], none⟩ : Var)] ∧
     domsNodup [(⟨"v", [1, 2], [true, true], none⟩ : Var)]) ∧
    (((prop_FC [(⟨"a", [0], [[1]]⟩ : Cons)]
          [(⟨"v", [1, 2], [true, true], none⟩ : Var)] none).2.2.Nodup ∧
      ∀ p ∈ (prop_FC [(⟨"a", [0], [[1]]⟩ : Cons)]
          [(⟨"v", [1, 2], [true, true], none⟩ : Var)] none).2.2,
        p.2 ∈ cur_domain [(⟨"v", [1, 2], [true, true], none⟩ : Var)] p.1 ∧
        p.2 ∉ cur_domain (prop_FC [(⟨"a", [0], [[1]]⟩ : Cons)]
          [(⟨"v", [1, 2], [true, true], none⟩ : Var)] none).2.1 p.1) ∧
    ((prop_GAC [(⟨"a", [0], [[1]]⟩ : Cons)]
          [(⟨"v", [1, 2], [true, true], none⟩ : Var)] none).2.2.Nodup ∧
      ∀ p ∈ (prop_GAC [(⟨"a", [0], [[1]]⟩ : Cons)]
          [(⟨"v", [1, 2], [true, true], none⟩ : Var)] none).2.2,
        p.2 ∈ cur_domain [(⟨"v", [1, 2], [true, true], none⟩ : Var)] p.1 ∧
        p.2 ∉ cur_domain (prop_GAC [(⟨"a", [0], [[1]]⟩ : Cons)]
          [(⟨"v", [1, 2], [true, true], none⟩ : Var)] none).2.1 p.1)) :=
  ⟨⟨by decide, by decide⟩,
   no_double_prune [(⟨"a", [0], [[1]]⟩ : Cons)]
     [(⟨"v", [1, 2], [true, true], none⟩ : Var)] none
     (by decide) (by decide)⟩

end Futoshiki
